import Mathlib

/-!
# vsnetrw: the listing renderer and the line parser

A shallow embedding of `src/extension.js`: the function that renders a directory
as lines of text (`provideTextDocumentContent`) and the function that maps a line
back to a path (`getFilePathFromLine`), together with the parts of the JavaScript
and Node.js runtime they call (`String.prototype` methods, the two regular
expressions, `path.join`, `path.dirname` for POSIX paths, `Array.prototype.sort`).
-/

namespace Vsnetrw

/-- A JavaScript string, as the list of its characters. -/
abbrev Str := List Char

/-! ## Strings and regular-expression character classes -/

/-- Code points matched by `\s` in a JavaScript regular expression. -/
def isWhiteSpace (c : Char) : Bool :=
  [0x09, 0x0A, 0x0B, 0x0C, 0x0D, 0x20, 0xA0, 0x1680, 0x2028, 0x2029, 0x202F, 0x205F,
    0x3000, 0xFEFF].contains c.toNat
  || (0x2000 ≤ c.toNat && c.toNat ≤ 0x200A)

/-- Line terminators: the code points that `.` does not match. -/
def isLineTerminator (c : Char) : Bool :=
  [0x0A, 0x0D, 0x2028, 0x2029].contains c.toNat

/-- The method `s.startsWith(pat)`. -/
def startsWith (s pat : Str) : Bool := pat.isPrefixOf s

/-- The method `s.endsWith(pat)`. -/
def endsWith (s pat : Str) : Bool := pat.isSuffixOf s

/-- The method `s.includes(pat)`. -/
def includes : Str → Str → Bool
  | [], pat => pat.isPrefixOf []
  | c :: cs, pat => pat.isPrefixOf (c :: cs) || includes cs pat

/-- The call `s.slice(0, -1)`. -/
def sliceInit (s : Str) : Str := s.dropLast

/-- UTF-16 code units of one character. -/
def codeUnits (c : Char) : List Nat :=
  if c.toNat < 0x10000 then [c.toNat]
  else [0xD800 + (c.toNat - 0x10000) / 0x400, 0xDC00 + (c.toNat - 0x10000) % 0x400]

/-- UTF-16 code units of a string: what JavaScript compares strings by. -/
def toUTF16 (s : Str) : List Nat := s.flatMap codeUnits

/-- Lexicographic `<` on code-unit sequences. -/
def lexLt : List Nat → List Nat → Bool
  | _, [] => false
  | [], _ :: _ => true
  | a :: as, b :: bs => a < b || (a == b && lexLt as bs)

/-- The JavaScript comparison `a < b` of two strings. -/
def strLt (a b : Str) : Bool := lexLt (toUTF16 a) (toUTF16 b)

/-! ## `node:path` (POSIX) -/

/-- The pieces of a path between its `/` separators (empty pieces included). -/
def segments : Str → List Str
  | [] => [[]]
  | c :: cs =>
    if c = '/' then [] :: segments cs
    else
      match segments cs with
      | [] => [[c]]
      | s :: ss => (c :: s) :: ss

/-- One step of `normalizeString`: `res` holds the kept segments, last one first. -/
def normalizeStep (allowAboveRoot : Bool) (res : List Str) (seg : Str) : List Str :=
  if seg = [] ∨ seg = ['.'] then res
  else if seg = ['.', '.'] then
    match res with
    | [] => if allowAboveRoot then [['.', '.']] else []
    | top :: below =>
      if top = ['.', '.'] then
        if allowAboveRoot then ['.', '.'] :: top :: below else top :: below
      else below
  else seg :: res

/-- The helper `normalizeString(path, allowAboveRoot, "/", isPosixPathSeparator)`:
resolves `.` and `..` segments and drops empty ones. -/
def normalizeString (path : Str) (allowAboveRoot : Bool) : Str :=
  ['/'].intercalate ((segments path).foldl (normalizeStep allowAboveRoot) []).reverse

/-- The function `path.normalize`. -/
def normalize (path : Str) : Str :=
  if path = [] then ['.']
  else
    let isAbsolute := path.head? = some '/'
    let trailingSeparator := path.getLast? = some '/'
    let p := normalizeString path (!isAbsolute)
    if p = [] then
      if isAbsolute then ['/'] else if trailingSeparator then ['.', '/'] else ['.']
    else
      let p := if trailingSeparator then p ++ ['/'] else p
      if isAbsolute then '/' :: p else p

/-- The function `path.join(...args)`. -/
def join (args : List Str) : Str :=
  match args.filter (fun a => a ≠ []) with
  | [] => ['.']
  | parts => normalize (['/'].intercalate parts)

/-- The backwards scan of `path.dirname`: from index `i` down to index 1, the index
of the first `/` that follows (from the right) a character other than `/`. -/
def dirnameEnd (path : Str) : Nat → Bool → Option Nat
  | 0, _ => none
  | i + 1, matchedSlash =>
    if path[i + 1]? = some '/' then
      if !matchedSlash then some (i + 1) else dirnameEnd path i matchedSlash
    else dirnameEnd path i false

/-- The function `path.dirname`. -/
def dirname (path : Str) : Str :=
  if path = [] then ['.']
  else
    let hasRoot := path.head? = some '/'
    match dirnameEnd path (path.length - 1) true with
    | none => if hasRoot then ['/'] else ['.']
    | some e => if hasRoot ∧ e = 1 then ['/', '/'] else path.take e

/-! ## Session state -/

/-- The module-level variables of `extension.js` that the renderer and the parser read. -/
structure Session where
  /-- The variable `initialDirectory`. -/
  initialDirectory : Option Str := none
  /-- The variable `showFullPaths`. -/
  showFullPaths : Bool := false
  /-- The variable `showBookmarks`. -/
  showBookmarks : Bool := true
  /-- The variable `showHelp`. -/
  showHelp : Bool := false
  /-- The variable `showHidden`. -/
  showHidden : Bool := true
  /-- The variable `bookmarks`: a `Map`, kept as its entries in insertion order. -/
  bookmarks : List (Str × Str) := []

/-! ## The line parser -/

/-- The tail of `/\s+(.+)$/` on the text `u` that follows the `]`: `\s+` is greedy, so it
first takes `k` characters, then gives them back one at a time down to one; `(.+)$`
needs a non-empty rest without line terminators. -/
def bookmarkRest (u : Str) : Nat → Option Str
  | 0 => none
  | k + 1 =>
    let rest := u.drop (k + 1)
    if rest ≠ [] ∧ rest.all (fun c => !isLineTerminator c) then some rest
    else bookmarkRest u k

/-- The call `lineText.match(/^\[([^\]]+)\]\s+(.+)$/)`: the two captured groups. -/
def bookmarkMatch (lineText : Str) : Option (Str × Str) :=
  match lineText with
  | [] => none
  | c :: t =>
    if c = '[' then
      let key := t.takeWhile (fun x => x != ']')
      match t.dropWhile (fun x => x != ']') with
      | [] => none
      | _ :: u =>
        if key = [] then none
        else (bookmarkRest u (u.takeWhile isWhiteSpace).length).map (fun rest => (key, rest))
    else none

/-- The class `[MADURC]`. -/
def isStatusLetter (c : Char) : Bool := ['M', 'A', 'D', 'U', 'R', 'C'].contains c

/-- Whether `/\s+[MADURC]$/` matches from the first character of `s` on. -/
def statusSuffixAt : Str → Bool
  | [] => false
  | c :: cs =>
    isWhiteSpace c &&
      (statusSuffixAt cs ||
        match cs with
        | [d] => isStatusLetter d
        | _ => false)

/-- The call `lineText.replace(/\s+[MADURC]$/, "")`: the leftmost match is removed. -/
def removeStatusSuffix : Str → Str
  | [] => []
  | c :: cs => if statusSuffixAt (c :: cs) then [] else c :: removeStatusSuffix cs

/-- The first test of `getFilePathFromLine`: the bookmark separator, a line that starts
with `vsnetrw`, or a line that contains a colon followed by a space. -/
def isNonPathLine (lineText : Str) : Bool :=
  lineText = "-- BOOKMARKS --".toList || startsWith lineText "vsnetrw".toList
    || includes lineText ": ".toList

/-- The last three steps of `getFilePathFromLine`, on the text left once the status
suffix is removed: the parent marker, a full path, or a name relative to `baseDir`. -/
def resolveText (s : Session) (text baseDir : Str) : Str :=
  if text = "../".toList then dirname baseDir
  else if s.showFullPaths then
    if endsWith text "/".toList then sliceInit text else text
  else join [baseDir, text]

/-- The function `getFilePathFromLine(lineText, baseDir)`; it reads `showFullPaths`. -/
def getFilePathFromLine (s : Session) (lineText baseDir : Str) : Str :=
  if isNonPathLine lineText then []
  else
    match bookmarkMatch lineText with
    | some (_, bookmarkPath) =>
      if endsWith bookmarkPath "/".toList then sliceInit bookmarkPath else bookmarkPath
    | none => resolveText s (removeStatusSuffix lineText) baseDir

/-- The call `lineText.match(/^\[([^\]]+)\]/)` of `openFileUnderCursor` and of the
bookmark commands: the captured key. -/
def bookmarkPrefix (lineText : Str) : Option Str :=
  match lineText with
  | [] => none
  | c :: t =>
    if c = '[' then
      let key := t.takeWhile (fun x => x != ']')
      match t.dropWhile (fun x => x != ']') with
      | [] => none
      | _ :: _ => if key = [] then none else some key
    else none

/-- A text whose last character is one of `M A D U R C` and whose last but one is a
white-space character: the texts in which `/\s+[MADURC]$/` finds a match. -/
def endsInStatusSuffix : Str → Bool
  | [] => false
  | [_] => false
  | [w, c] => isWhiteSpace w && isStatusLetter c
  | _ :: b :: c :: rest => endsInStatusSuffix (b :: c :: rest)

/-! ## `Array.prototype.sort` -/

/-- The loop of `CountAndMakeRun`: how many of the elements after `prev` continue the
run (ascending: not smaller than their predecessor; descending: strictly smaller). -/
def runLength {α : Type} (cmp : α → α → Int) (descending : Bool) : α → List α → Nat
  | _, [] => 0
  | prev, cur :: rest =>
    let order := cmp cur prev
    if descending then
      if order ≥ 0 then 0 else runLength cmp descending cur rest + 1
    else
      if order < 0 then 0 else runLength cmp descending cur rest + 1

/-- The step `CountAndMakeRun`: the longest run that starts the array, reversed in place
when it is strictly descending, and the elements after it. -/
def countAndMakeRun {α : Type} (cmp : α → α → Int) : List α → List α × List α
  | a :: b :: rest =>
    let descending := decide (cmp b a < 0)
    let n := runLength cmp descending b rest
    let run := a :: b :: rest.take n
    (if descending then run.reverse else run, rest.drop n)
  | arr => (arr, [])

/-- The inner loop of `BinaryInsertionSort`: the binary search for the place of `pivot`
among `arr[left..right)`. The third argument bounds the number of iterations; the
initial `right - left` is enough since the interval shrinks at each iteration. -/
def findInsertionPoint {α : Type} (cmp : α → α → Int) (pivot : α) (arr : List α) :
    Nat → Nat → Nat → Nat
  | 0, left, _ => left
  | fuel + 1, left, right =>
    if left < right then
      let mid := left + (right - left) / 2
      match arr[mid]? with
      | none => left
      | some x =>
        if cmp pivot x < 0 then findInsertionPoint cmp pivot arr fuel left mid
        else findInsertionPoint cmp pivot arr fuel (mid + 1) right
    else left

/-- The step `BinaryInsertionSort`: each element of `rest` in turn is inserted into the
sorted part `sorted` that precedes it in the array. -/
def binaryInsertionSort {α : Type} (cmp : α → α → Int) : List α → List α → List α
  | sorted, [] => sorted
  | sorted, pivot :: rest =>
    let left := findInsertionPoint cmp pivot sorted sorted.length 0 sorted.length
    binaryInsertionSort cmp (sorted.take left ++ pivot :: sorted.drop left) rest

/-- The method `arr.sort(cmp)` as the V8 engine (the editor's JavaScript engine) runs it
on an array of fewer than 64 elements: the leading run is found (and reversed when
descending), then the remaining elements are inserted by binary insertion. The
comparator is called with the later element first. On longer arrays V8 cuts the array
into several such runs and merges them; that merging is not part of this model. -/
def arraySort {α : Type} (cmp : α → α → Int) (arr : List α) : List α :=
  binaryInsertionSort cmp (countAndMakeRun cmp arr).1 (countAndMakeRun cmp arr).2

/-! ## The host: filesystem entries, git, collation -/

/-- The constant `FileType.Directory` of the editor API (a bit of the type mask). -/
def FileType.Directory : Nat := 2

/-- One `[name, type]` pair returned by `workspace.fs.readDirectory`. -/
structure DirectoryEntry where
  /-- The entry name. -/
  name : Str
  /-- The `FileType` bit mask. -/
  type : Nat
  deriving DecidableEq, Repr

/-- The test `type & FileType.Directory` used as a condition. -/
def DirectoryEntry.isDirectory (e : DirectoryEntry) : Bool :=
  e.type &&& FileType.Directory != 0

/-- One change of a git repository state: the file and its status number. -/
structure Change where
  /-- The field `uri.fsPath`. -/
  fsPath : Str
  /-- The field `status`. -/
  status : Nat

/-- The field `repository.state` of the git extension API. -/
structure Repository where
  /-- Staged changes. -/
  indexChanges : List Change
  /-- Unstaged changes. -/
  workingTreeChanges : List Change

/-- What the editor host supplies besides the directory contents. -/
structure Host where
  /-- The method `String.prototype.localeCompare` (locale-sensitive collation). -/
  localeCompare : Str → Str → Int
  /-- The call `gitApi.getRepository(fileUri)`; `none` stands for every way in which
  `getGitStatus` finds no repository (extension absent or inactive, no API, no
  repository, an exception). -/
  getRepository : Str → Option Repository

/-- The function `getGitStatus(fileUri, baseDir)`. -/
def getGitStatus (host : Host) (filePath : Str) : Str :=
  match host.getRepository filePath with
  | none => []
  | some repository =>
    let staged : Option Str :=
      match repository.indexChanges.find? (fun change => change.fsPath = filePath) with
      | none => none
      | some indexChange =>
        let status := indexChange.status
        if status = 1 ∨ status = 5 ∨ status = 6 then some ['M']
        else if status = 2 then some ['A']
        else if status = 3 then some ['D']
        else none
    match staged with
    | some symbol => symbol
    | none =>
      match repository.workingTreeChanges.find? (fun change => change.fsPath = filePath) with
      | none => []
      | some workingTreeChange =>
        let status := workingTreeChange.status
        if status = 1 ∨ status = 5 ∨ status = 6 then ['M']
        else if status = 2 then ['A']
        else if status = 3 then ['D']
        else if status = 4 then ['U']
        else []

/-! ## The listing renderer -/

/-- The comparator passed to `results.sort` in `provideTextDocumentContent`. -/
def compareEntries (a b : DirectoryEntry) : Int :=
  if a.isDirectory then
    if b.isDirectory then 0 else -1
  else if strLt a.name b.name then -1 else 1

/-- The entries that get a line: `results` after the hidden-file filter and the sort. -/
def visibleEntries (s : Session) (results : List DirectoryEntry) : List DirectoryEntry :=
  let results :=
    if !s.showHidden then results.filter (fun e => !startsWith e.name ['.']) else results
  arraySort compareEntries results

/-- The text of an entry line given its status symbol: the body of the `results.map`
callback after `getGitStatus` has answered. -/
def formatEntry (s : Session) (pathName : Str) (e : DirectoryEntry) (gitStatus : Str) : Str :=
  let filePath := join [pathName, e.name]
  let fileName :=
    if s.showFullPaths then
      if e.isDirectory then filePath ++ ['/'] else filePath
    else
      if e.isDirectory then e.name ++ ['/'] else e.name
  if gitStatus ≠ [] then fileName ++ ' ' :: gitStatus else fileName

/-- The callback of `results.map`: the line of one entry. -/
def entryLine (host : Host) (s : Session) (pathName : Str) (e : DirectoryEntry) : Str :=
  formatEntry s pathName e (getGitStatus host (join [pathName, e.name]))

/-- The array `helpText`. -/
def helpText : List Str :=
  [ "////////////////////".toList,
    "// Olivo Explorer //".toList,
    "////////////////////".toList,
    "-: close".toList,
    "o: open in finder".toList,
    ".: back to root".toList,
    "b: bookmarks".toList,
    "shift+b: toggle bookmarks".toList,
    "m: add bookmark".toList,
    "shift+m: delete bookmark".toList,
    "r: rename".toList,
    "%: create".toList,
    "d: create dir".toList,
    "D/delete: delete".toList,
    "shift+p: toggle full paths".toList,
    "ctrl+l: refresh".toList ]

/-- The template `[key] bookmarkPath/` of a bookmark line. -/
def bookmarkLine (b : Str × Str) : Str := '[' :: b.1 ++ ']' :: ' ' :: b.2 ++ ['/']

/-- The array `sortedBookmarks`: the map entries sorted by `localeCompare` of the keys. -/
def sortedBookmarks (host : Host) (s : Session) : List (Str × Str) :=
  arraySort (fun a b => host.localeCompare a.1 b.1) s.bookmarks

/-- The array `bookmarkListings`. -/
def bookmarkListings (host : Host) (s : Session) : List Str :=
  (sortedBookmarks host s).map bookmarkLine

/-- The array `listings` of `provideTextDocumentContent` as it stands before the final
`join`, for the directory `pathName` whose `readDirectory` result is `results`. -/
def listings (host : Host) (s : Session) (pathName : Str) (results : List DirectoryEntry) :
    List Str :=
  let listings := (visibleEntries s results).map (entryLine host s pathName)
  let hasParent := dirname pathName ≠ pathName
  let listings := if hasParent then "../".toList :: listings else listings
  let listings := if s.showHelp then helpText ++ listings else listings
  if s.showBookmarks ∧ s.bookmarks.length > 0 then
    listings ++ "-- BOOKMARKS --".toList :: bookmarkListings host s
  else listings

/-- The function `provideTextDocumentContent(documentUri)`: the listing as one string. -/
def provideTextDocumentContent (host : Host) (s : Session) (pathName : Str)
    (results : List DirectoryEntry) : Str :=
  ['\n'].intercalate (listings host s pathName results)

/-- The host's default collation restricted to strings of ASCII letters: alphabetical
order regardless of case first, then, at the first difference in case, the lower-case
letter first. -/
def letterCollation (a b : Str) : Int :=
  let fa := a.map Char.toLower
  let fb := b.map Char.toLower
  if strLt fa fb then -1
  else if strLt fb fa then 1
  else if strLt b a then -1
  else if strLt a b then 1
  else 0

/-- The lines of `listings` that come before the entry lines: the help banner when
`showHelp` is set, then the parent marker when the directory has a parent. -/
def listingHeader (s : Session) (pathName : Str) : List Str :=
  (if s.showHelp then helpText else []) ++
    (if dirname pathName ≠ pathName then ["../".toList] else [])

/-- The lines of `listings` that come after the entry lines: the separator and the
bookmark lines, when `showBookmarks` is set and there is a bookmark. -/
def bookmarkSection (host : Host) (s : Session) : List Str :=
  if s.showBookmarks ∧ s.bookmarks.length > 0 then
    "-- BOOKMARKS --".toList :: bookmarkListings host s
  else []

/-! ## The commands

The commands of `extension.js` run from an explorer document. Each is modelled as a
function of the session and of the answers of the editor host, which returns the new
session, the calls made to the host in order, and whether the command ended with an
error (a rejected promise). -/

/-- The function `path.basename(path)` (POSIX, no suffix): the last segment, trailing
slashes ignored. -/
def basename (path : Str) : Str :=
  ((path.reverse.dropWhile (fun c => c = '/')).takeWhile (fun c => c ≠ '/')).reverse

/-- The method `bookmarks.set(key, value)` of a `Map`: an existing key keeps its place. -/
def mapSet (m : List (Str × Str)) (key value : Str) : List (Str × Str) :=
  if m.any (fun e => e.1 = key) then m.map (fun e => if e.1 = key then (key, value) else e)
  else m ++ [(key, value)]

/-- The method `bookmarks.delete(key)`. -/
def mapDelete (m : List (Str × Str)) (key : Str) : List (Str × Str) :=
  m.filter (fun e => e.1 ≠ key)

/-- The method `bookmarks.get(key)`. -/
def mapGet (m : List (Str × Str)) (key : Str) : Option Str :=
  (m.find? (fun e => e.1 = key)).map Prod.snd

/-- The method `bookmarks.has(key)`. -/
def mapHas (m : List (Str × Str)) (key : Str) : Bool :=
  m.any (fun e => e.1 = key)

/-- A call that a command makes to the editor host. -/
inductive Call where
  /-- The call `workspace.fs.stat(Uri.file(path))`. -/
  | stat (path : Str)
  /-- The call `workspace.fs.rename(Uri.file(src), Uri.file(dst), ...)`. -/
  | rename (src dst : Str)
  /-- The call `workspace.fs.delete(Uri.file(path), ...)`. -/
  | delete (path : Str)
  /-- The call `extensionContext.globalState.update("vsnetrw.bookmarks", ...)`. -/
  | update (bookmarks : List (Str × Str))
  /-- The call `openExplorer(dirName)`: an explorer document is shown. -/
  | openExplorer (dirName : Str)
  /-- The command `vscode.open` on a file. -/
  | openEditor (fileName : Str)
  /-- The command `workbench.action.closeActiveEditor`. -/
  | closeEditor
  /-- The call `saveCursorPosition()`. -/
  | saveCursorPosition
  /-- The call `refresh()`: the listing is rendered again. -/
  | refresh
  /-- An input box, a confirmation or a quick pick shown to the user. -/
  | prompt
  /-- An information, warning or error message shown to the user. -/
  | message
  deriving DecidableEq, Repr

/-- The answers of the editor host during one command. -/
structure Editor where
  /-- Whether the active editor shows an explorer document. -/
  explorerActive : Bool
  /-- The value of `getCurrentDir()`. -/
  currentDir : Str
  /-- The value of `getLineUnderCursor()`. -/
  lineUnderCursor : Str
  /-- The value of `getLinesUnderCursor()`. -/
  linesUnderCursor : List Str
  /-- The file type that `workspace.fs.stat` reports; `none` when it throws. -/
  stat : Str → Option Nat
  /-- Whether `workspace.fs.delete` succeeds on a path. -/
  deleteOk : Str → Bool
  /-- Whether `workspace.fs.rename` succeeds. -/
  renameOk : Bool
  /-- The text entered in the input box; `none` when it is dismissed. -/
  inputBox : Option Str
  /-- The answer to `confirm(...)`. -/
  confirm : Bool
  /-- Whether the user chooses `Overwrite` in the modal warning. -/
  overwrite : Bool
  /-- The key chosen in the quick pick; `none` when it is dismissed. -/
  quickPick : Option Str
  /-- Whether `extensionContext` is set. -/
  hasContext : Bool
  /-- Whether `globalState.update` succeeds. -/
  updateOk : Bool
  /-- The value of `getInitialDir()`. -/
  initialDir : Str
  /-- The folder that `openHomeDirectory` computes. -/
  homeDir : Str

/-- What a command leaves behind. -/
structure Result where
  /-- The module-level variables after the command. -/
  session : Session
  /-- The calls made to the host, in order. -/
  calls : List Call
  /-- Whether the command ended with an error. -/
  failed : Bool

/-- The function `closeExplorer()`. -/
def closeExplorer (ed : Editor) : List Call :=
  if ed.explorerActive then [Call.saveCursorPosition, Call.closeEditor] else []

/-- The function `openFileInVscodeEditor(fileName, viewColumn)`. -/
def openFileInVscodeEditor (ed : Editor) (fileName : Str) : List Call :=
  closeExplorer ed ++ [Call.openEditor fileName]

/-- The function `saveBookmarks()`: the calls, and whether the write failed. -/
def saveBookmarks (ed : Editor) (s : Session) : List Call × Bool :=
  if !ed.hasContext then ([], false) else ([Call.update s.bookmarks], !ed.updateOk)

/-- The function `addBookmark(key, bookmarkPath)`. -/
def addBookmark (ed : Editor) (s : Session) (key bookmarkPath : Str) : Result :=
  let s' := { s with bookmarks := mapSet s.bookmarks key bookmarkPath }
  { session := s', calls := (saveBookmarks ed s').1, failed := (saveBookmarks ed s').2 }

/-- The function `deleteBookmark(key)`. -/
def deleteBookmark (ed : Editor) (s : Session) (key : Str) : Result :=
  let s' := { s with bookmarks := mapDelete s.bookmarks key }
  { session := s', calls := (saveBookmarks ed s').1, failed := (saveBookmarks ed s').2 }

/-- The function `jumpToBookmark(key)`. -/
def jumpToBookmark (s : Session) (key : Str) : Result :=
  match mapGet s.bookmarks key with
  | some bookmarkPath =>
    if bookmarkPath ≠ [] then
      { session := s, calls := [Call.saveCursorPosition, Call.openExplorer bookmarkPath],
        failed := false }
    else { session := s, calls := [Call.message], failed := false }
  | none => { session := s, calls := [Call.message], failed := false }

/-- The loop of `deleteFileUnderCursor`: one `delete` per file, until one fails. -/
def deleteLoop (ed : Editor) (base : Str) : List Str → List Call × Bool
  | [] => ([], false)
  | file :: rest =>
    let pathToFile := join [base, file]
    if ed.deleteOk pathToFile then
      (Call.delete pathToFile :: (deleteLoop ed base rest).1, (deleteLoop ed base rest).2)
    else ([Call.delete pathToFile], true)

/-- The function `deleteFileUnderCursor()`. -/
def deleteFileUnderCursor (ed : Editor) (s : Session) : Result :=
  let files := ed.linesUnderCursor.filter (fun file => file ≠ "../".toList)
  let base := ed.currentDir
  if !ed.confirm then { session := s, calls := [Call.prompt], failed := false }
  else
    let loop := deleteLoop ed base files
    if loop.2 then { session := s, calls := Call.prompt :: loop.1, failed := true }
    else { session := s, calls := Call.prompt :: loop.1 ++ [Call.refresh], failed := false }

/-- The function `openFileUnderCursor(viewColumn)`. -/
def openFileUnderCursor (ed : Editor) (s : Session) : Result :=
  let lineText := ed.lineUnderCursor
  match bookmarkPrefix lineText with
  | some key => jumpToBookmark s key
  | none =>
    let newPath := getFilePathFromLine s lineText ed.currentDir
    match ed.stat newPath with
    | none => { session := s, calls := [Call.stat newPath], failed := true }
    | some type =>
      if type &&& FileType.Directory != 0 then
        { session := s,
          calls := [Call.stat newPath, Call.saveCursorPosition, Call.openExplorer newPath],
          failed := false }
      else
        { session := s, calls := Call.stat newPath :: openFileInVscodeEditor ed newPath,
          failed := false }

/-- The end of `renameFileUnderCursor()`, once the type of the destination is known:
the refusal to replace a directory, the confirmation, the rename and the refresh. -/
def renameTo (ed : Editor) (s : Session) (before : List Call) (srcPath dstPath : Str)
    (dstFileType : Option Nat) : Result :=
  if dstFileType = some FileType.Directory then
    { session := s, calls := before ++ [Call.message], failed := false }
  else if dstFileType.isSome ∧ !ed.confirm then
    { session := s, calls := before ++ [Call.prompt], failed := false }
  else
    let asked := if dstFileType.isSome then [Call.prompt] else []
    if ed.renameOk then
      { session := s, calls := before ++ asked ++ [Call.rename srcPath dstPath, Call.refresh],
        failed := false }
    else
      { session := s, calls := before ++ asked ++ [Call.rename srcPath dstPath],
        failed := true }

/-- The function `renameFileUnderCursor()`. -/
def renameFileUnderCursor (ed : Editor) (s : Session) : Result :=
  let lineText := ed.lineUnderCursor
  let base := ed.currentDir
  let srcPath := getFilePathFromLine s lineText base
  match ed.inputBox with
  | none => { session := s, calls := [Call.prompt], failed := false }
  | some newName =>
    if newName = [] then { session := s, calls := [Call.prompt], failed := false }
    else
      let dstPath :=
        if s.showFullPaths then join [dirname srcPath, newName] else join [base, newName]
      let dstFileType := ed.stat dstPath
      if dstFileType = some FileType.Directory then
        let dstPath' := join [dstPath, basename srcPath]
        renameTo ed s [Call.prompt, Call.stat dstPath, Call.stat dstPath'] srcPath dstPath'
          (ed.stat dstPath')
      else renameTo ed s [Call.prompt, Call.stat dstPath] srcPath dstPath dstFileType

/-- The tail of a bookmark command after `addBookmark` or `deleteBookmark`: when the
bookmark function fails the command fails with it; otherwise the message is shown and
the listing refreshed. -/
def thenRefresh (before : List Call) (r : Result) : Result :=
  if r.failed then { session := r.session, calls := before ++ r.calls, failed := true }
  else
    { session := r.session, calls := before ++ r.calls ++ [Call.message, Call.refresh],
      failed := false }

/-- The function `addBookmarkCommand(key)`; `none` stands for a missing key. -/
def addBookmarkCommand (ed : Editor) (s : Session) (key : Option Str) : Result :=
  if !ed.explorerActive then { session := s, calls := [Call.message], failed := false }
  else
    let lineText := ed.lineUnderCursor
    match bookmarkPrefix lineText with
    | some k => thenRefresh [] (deleteBookmark ed s k)
    | none =>
      let baseDir := ed.currentDir
      let bookmarkPath := getFilePathFromLine s lineText baseDir
      match ed.stat bookmarkPath with
      | none => { session := s, calls := [Call.stat bookmarkPath, Call.message], failed := false }
      | some fileType =>
        if fileType = 0 then
          { session := s, calls := [Call.stat bookmarkPath, Call.message], failed := false }
        else
          let bookmarkPath :=
            if fileType &&& FileType.Directory != 0 then bookmarkPath else dirname bookmarkPath
          let stated := [Call.stat (getFilePathFromLine s lineText baseDir)]
          let withKey (before : List Call) (k : Str) : Result :=
            if mapHas s.bookmarks k then
              if ed.overwrite then thenRefresh (before ++ [Call.prompt]) (addBookmark ed s k bookmarkPath)
              else { session := s, calls := before ++ [Call.prompt], failed := false }
            else thenRefresh before (addBookmark ed s k bookmarkPath)
          match key with
          | some k =>
            if k ≠ [] then withKey stated k
            else
              match ed.inputBox with
              | none => { session := s, calls := stated ++ [Call.prompt], failed := false }
              | some k' =>
                withKey (stated ++ [Call.prompt]) (if k' ≠ [] then k' else basename bookmarkPath)
          | none =>
            match ed.inputBox with
            | none => { session := s, calls := stated ++ [Call.prompt], failed := false }
            | some k' =>
              withKey (stated ++ [Call.prompt]) (if k' ≠ [] then k' else basename bookmarkPath)

/-- The function `deleteBookmarkCommand()`. -/
def deleteBookmarkCommand (ed : Editor) (s : Session) : Result :=
  if !ed.explorerActive then { session := s, calls := [Call.message], failed := false }
  else
    match bookmarkPrefix ed.lineUnderCursor with
    | none => { session := s, calls := [Call.message], failed := false }
    | some key => thenRefresh [] (deleteBookmark ed s key)

/-- The function `jumpToBookmarkCommand(key)`; `none` stands for a missing key. -/
def jumpToBookmarkCommand (ed : Editor) (s : Session) (key : Option Str) : Result :=
  match key with
  | some k =>
    if k ≠ [] then jumpToBookmark s k
    else if s.bookmarks.length = 0 then { session := s, calls := [Call.message], failed := false }
    else
      match ed.quickPick with
      | none => { session := s, calls := [Call.prompt], failed := false }
      | some k' =>
        { session := s, calls := Call.prompt :: (jumpToBookmark s k').calls,
          failed := (jumpToBookmark s k').failed }
  | none =>
    if s.bookmarks.length = 0 then { session := s, calls := [Call.message], failed := false }
    else
      match ed.quickPick with
      | none => { session := s, calls := [Call.prompt], failed := false }
      | some k' =>
        { session := s, calls := Call.prompt :: (jumpToBookmark s k').calls,
          failed := (jumpToBookmark s k').failed }

/-- The function `openNewExplorer(dir)`; `none` stands for a missing argument, or for
the empty array that some key bindings pass, both replaced by `getInitialDir()`. -/
def openNewExplorer (ed : Editor) (s : Session) (dir : Option Str) : Result :=
  let dir := dir.getD ed.initialDir
  if ed.explorerActive then { session := s, calls := closeExplorer ed, failed := false }
  else
    let s' := if s.initialDirectory = none then { s with initialDirectory := some dir } else s
    { session := s', calls := [Call.openExplorer dir], failed := false }

/-- The function `openInitialDirectory()`. -/
def openInitialDirectory (ed : Editor) (s : Session) : Result :=
  match s.initialDirectory with
  | none =>
    let dir := ed.initialDir
    { session := { s with initialDirectory := some dir }, calls := [Call.openExplorer dir],
      failed := false }
  | some initialDirectory =>
    { session := s, calls := [Call.saveCursorPosition, Call.openExplorer initialDirectory],
      failed := false }

/-- The function `openParentDirectory()`. -/
def openParentDirectory (ed : Editor) (s : Session) : Result :=
  { session := s, calls := [Call.saveCursorPosition, Call.openExplorer (dirname ed.currentDir)],
    failed := false }

/-- The function `openHomeDirectory()`. -/
def openHomeDirectory (ed : Editor) (s : Session) : Result :=
  { session := s, calls := [Call.saveCursorPosition, Call.openExplorer ed.homeDir],
    failed := false }

/-- The function `toggleFullPaths()`. -/
def toggleFullPaths (s : Session) : Result :=
  { session := { s with showFullPaths := !s.showFullPaths }, calls := [Call.refresh],
    failed := false }

/-- The function `toggleBookmarks()`. -/
def toggleBookmarks (s : Session) : Result :=
  { session := { s with showBookmarks := !s.showBookmarks }, calls := [Call.refresh],
    failed := false }

/-- The function `toggleHelp()`. -/
def toggleHelp (s : Session) : Result :=
  { session := { s with showHelp := !s.showHelp }, calls := [Call.refresh], failed := false }

/-- The function `toggleHidden()`. -/
def toggleHidden (s : Session) : Result :=
  { session := { s with showHidden := !s.showHidden }, calls := [Call.refresh], failed := false }

/-- The commands that `activate` registers and that read or write the session. -/
inductive Op where
  /-- The command `vsnetrw.toggleFullPaths`. -/
  | toggleFullPaths
  /-- The command `vsnetrw.toggleBookmarks`. -/
  | toggleBookmarks
  /-- The command `vsnetrw.toggleHelp`. -/
  | toggleHelp
  /-- The command `vsnetrw.toggleHidden`. -/
  | toggleHidden
  /-- The command `vsnetrw.open`. -/
  | openNewExplorer (dir : Option Str)
  /-- The command `vsnetrw.openInitial`. -/
  | openInitialDirectory
  /-- The command `vsnetrw.openAtCursor`. -/
  | openFileUnderCursor
  /-- The command `vsnetrw.openParent`. -/
  | openParentDirectory
  /-- The command `vsnetrw.openHome`. -/
  | openHomeDirectory
  /-- The command `vsnetrw.rename`. -/
  | renameFileUnderCursor
  /-- The command `vsnetrw.delete`. -/
  | deleteFileUnderCursor
  /-- The command `vsnetrw.addBookmark`. -/
  | addBookmarkCommand (key : Option Str)
  /-- The command `vsnetrw.deleteBookmark`. -/
  | deleteBookmarkCommand
  /-- The command `vsnetrw.jumpToBookmark`. -/
  | jumpToBookmarkCommand (key : Option Str)

/-- One command, run in a session with the answers of the host. -/
def perform (ed : Editor) (s : Session) : Op → Result
  | Op.toggleFullPaths => toggleFullPaths s
  | Op.toggleBookmarks => toggleBookmarks s
  | Op.toggleHelp => toggleHelp s
  | Op.toggleHidden => toggleHidden s
  | Op.openNewExplorer dir => openNewExplorer ed s dir
  | Op.openInitialDirectory => openInitialDirectory ed s
  | Op.openFileUnderCursor => openFileUnderCursor ed s
  | Op.openParentDirectory => openParentDirectory ed s
  | Op.openHomeDirectory => openHomeDirectory ed s
  | Op.renameFileUnderCursor => renameFileUnderCursor ed s
  | Op.deleteFileUnderCursor => deleteFileUnderCursor ed s
  | Op.addBookmarkCommand key => addBookmarkCommand ed s key
  | Op.deleteBookmarkCommand => deleteBookmarkCommand ed s
  | Op.jumpToBookmarkCommand key => jumpToBookmarkCommand ed s key

/-- The session after a sequence of commands, each with its own answers of the host. -/
def runCommands (s : Session) : List (Editor × Op) → Session
  | [] => s
  | (ed, op) :: rest => runCommands (perform ed s op).session rest

/-! ## Example inputs -/

/-- A host in which git reports `/a/f.txt` as modified in the working tree, and
strings of letters collate as in the default locale. -/
def exampleHost : Host where
  localeCompare := letterCollation
  getRepository := fun _ =>
    some { indexChanges := [], workingTreeChanges := [⟨"/a/f.txt".toList, 1⟩] }

/-- The directory entry `sub`. -/
def subDir : DirectoryEntry := ⟨"sub".toList, 2⟩

/-- The file entry `f.txt`. -/
def fTxt : DirectoryEntry := ⟨"f.txt".toList, 1⟩

/-- A file whose name contains a colon followed by a space. -/
def notesFile : DirectoryEntry := ⟨"notes: todo.txt".toList, 1⟩

/-- The session of the first scenario: relative names, hidden entries filtered. -/
def plainSession : Session := { showHidden := false }

/-- A session that shows full paths. -/
def fullPathSession : Session := { showFullPaths := true }

/-- A name as `readDirectory` returns them: not empty, without `/`, and neither `.`
nor `..`. -/
def isEntryName (name : Str) : Bool :=
  name != [] && !name.contains '/' && name != ['.'] && name != ['.', '.']

/-- A text whose last character is a white-space character. -/
def endsInWhiteSpace (s : Str) : Bool :=
  match s.getLast? with
  | some c => isWhiteSpace c
  | none => false

/-- A session with two bookmarks, of keys `B` and `a`, in this insertion order. -/
def twoBookmarks : Session :=
  { bookmarks := [("B".toList, "/x".toList), ("a".toList, "/y".toList)] }

/-- A host whose collation is the plain code-unit order. -/
def ordinalHost : Host where
  localeCompare := fun a b => if strLt a b then -1 else if strLt b a then 1 else 0
  getRepository := fun _ => none

/-- A host editor showing the explorer of `/a`, with the cursor on the line `f.txt M`;
`stat` finds a directory at the empty path (the filesystem root) and nothing elsewhere;
every other call succeeds and the user accepts every prompt, entering `x`. -/
def exampleEditor : Editor where
  explorerActive := true
  currentDir := "/a".toList
  lineUnderCursor := "f.txt M".toList
  linesUnderCursor := ["f.txt M".toList]
  stat := fun p => if p = [] then some 2 else none
  deleteOk := fun _ => true
  renameOk := true
  inputBox := some "x".toList
  confirm := true
  overwrite := true
  quickPick := none
  hasContext := true
  updateOk := true
  initialDir := "/a".toList
  homeDir := "/home/u".toList

/-- The editor of `exampleEditor` with the cursor on the bookmark separator. -/
def separatorEditor : Editor :=
  { exampleEditor with
    lineUnderCursor := "-- BOOKMARKS --".toList
    linesUnderCursor := ["-- BOOKMARKS --".toList] }

/-- The editor of `exampleEditor` with the cursor on the directory line `sub/`, a `stat`
that finds directories everywhere, and a persistence write that fails. -/
def failingWriteEditor : Editor :=
  { exampleEditor with
    lineUnderCursor := "sub/".toList
    linesUnderCursor := ["sub/".toList]
    stat := fun _ => some 2
    updateOk := false }

/-- The file entry `b`. -/
def bFile : DirectoryEntry := ⟨"b".toList, 1⟩

/-- The editor of `exampleEditor` showing the directory `/a/b/..`, with the parent marker
and the line `b` selected. -/
def dotDotEditor : Editor :=
  { exampleEditor with
    currentDir := "/a/b/..".toList
    lineUnderCursor := "b".toList
    linesUnderCursor := ["../".toList, "b".toList] }

/-- The editor of `exampleEditor` with the three lines of the listing of `/a` selected. -/
def wholeListingEditor : Editor :=
  { exampleEditor with
    linesUnderCursor := ["../".toList, "sub/".toList, "f.txt M".toList] }

/-- A host in which git reports every path as modified in the working tree. -/
def modifiedHost : Host where
  localeCompare := letterCollation
  getRepository := fun p => some { indexChanges := [], workingTreeChanges := [⟨p, 1⟩] }

/-- A file whose name ends in a colon. -/
def colonFile : DirectoryEntry := ⟨"a:".toList, 1⟩

/-- A file whose name is a bracketed key. -/
def bracketFile : DirectoryEntry := ⟨"[k]".toList, 1⟩

/-- A file whose name ends in a space. -/
def spaceFile : DirectoryEntry := ⟨"x ".toList, 1⟩

/-- The non-empty segments of a path. -/
def cleanSegments (path : Str) : List Str := (segments path).filter (fun seg => seg ≠ [])

/-- The number of non-empty segments of a path. -/
def depth (path : Str) : Nat := (cleanSegments path).length

/-- A path none of whose segments is `.` or `..`. -/
def hasNoDotSegment (path : Str) : Bool :=
  (segments path).all (fun seg => seg != ['.'] && seg != ['.', '.'])

/-- The segments that `normalizeString` keeps for a rooted path, the last one first. -/
def keptSegments (path : Str) : List Str := (segments path).foldl (normalizeStep false) []

/-- The directory entry `b`. -/
def bDir : DirectoryEntry := ⟨"b".toList, 2⟩

/-- A file entry with an empty name, which no directory listing holds. -/
def emptyFile : DirectoryEntry := ⟨[], 1⟩

/-- The editor of `exampleEditor` showing the directory `//`, with the parent marker and
the empty line selected. -/
def slashesEditor : Editor :=
  { exampleEditor with
    currentDir := "//".toList
    lineUnderCursor := []
    linesUnderCursor := ["../".toList, []] }

/-- A directory entry named `..`, which no directory listing holds. -/
def dotDotDir : DirectoryEntry := ⟨"..".toList, 2⟩

/-- A directory entry named `.`, which no directory listing holds. -/
def dotDir : DirectoryEntry := ⟨".".toList, 2⟩

/-- A file whose name is the text of the bookmark separator. -/
def separatorFile : DirectoryEntry := ⟨"-- BOOKMARKS --".toList, 1⟩

/-- A result without a refresh in which every persistence write is followed by the
failure of the command, the written map being the one left in memory. -/
def EndsAtFailedWrite (r : Result) : Prop :=
  Call.refresh ∉ r.calls ∧
    ∀ b, Call.update b ∈ r.calls → r.failed = true ∧ r.session.bookmarks = b

/-- A comparator that orders the elements satisfying `P` consistently: "less than"
(`cmp a b < 0`) is asymmetric, and "not greater than" is transitive. -/
structure ConsistentOn {α : Type} (cmp : α → α → Int) (P : α → Prop) : Prop where
  /-- Not both `a` before `b` and `b` before `a`. -/
  asymm : ∀ a b, P a → P b → cmp a b < 0 → ¬ cmp b a < 0
  /-- If `b` is not before `a` and `c` is not before `b`, then `c` is not before `a`. -/
  trans : ∀ a b c, P a → P b → P c → ¬ cmp b a < 0 → ¬ cmp c b < 0 → ¬ cmp c a < 0

/-! ## Facts about the sort -/

section SortFacts

variable {α : Type} (cmp : α → α → Int)

theorem runLength_le (d : Bool) :
    ∀ (prev : α) (rest : List α), runLength cmp d prev rest ≤ rest.length
  | _, [] => by simp [runLength]
  | prev, cur :: rest => by
    have ih := runLength_le d cur rest
    simp only [runLength, List.length_cons]
    split <;> split <;> omega

theorem countAndMakeRun_perm (l : List α) :
    ((countAndMakeRun cmp l).1 ++ (countAndMakeRun cmp l).2).Perm l := by
  match l with
  | [] => simp [countAndMakeRun]
  | [a] => simp [countAndMakeRun]
  | a :: b :: rest =>
    simp only [countAndMakeRun]
    have h : (a :: b :: List.take (runLength cmp (decide (cmp b a < 0)) b rest) rest ++
        List.drop (runLength cmp (decide (cmp b a < 0)) b rest) rest) = a :: b :: rest := by
      simp
    split
    · exact ((List.reverse_perm _).append_right _).trans (by rw [h])
    · rw [h]

theorem binaryInsertionSort_perm :
    ∀ (rest sorted : List α), (binaryInsertionSort cmp sorted rest).Perm (sorted ++ rest)
  | [], sorted => by simp [binaryInsertionSort]
  | pivot :: rest, sorted => by
    simp only [binaryInsertionSort]
    refine (binaryInsertionSort_perm rest _).trans ?_
    have h1 : (List.take (findInsertionPoint cmp pivot sorted sorted.length 0 sorted.length) sorted
        ++ pivot :: List.drop (findInsertionPoint cmp pivot sorted sorted.length 0 sorted.length)
          sorted).Perm (pivot :: sorted) :=
      List.perm_middle.trans (by rw [List.take_append_drop])
    exact (h1.append_right rest).trans List.perm_middle.symm

theorem ConsistentOn.lt_trans {cmp : α → α → Int} {P : α → Prop} (h : ConsistentOn cmp P)
    {a b c : α} (ha : P a) (hb : P b) (hc : P c) (hab : cmp a b < 0) (hbc : cmp b c < 0) :
    cmp a c < 0 := by
  by_contra hac
  exact h.trans b c a hb hc ha (h.asymm b c hb hc hbc) hac hab

theorem runLength_ascending {P : α → Prop} (h : ConsistentOn cmp P) :
    ∀ (prev : α) (rest : List α), P prev → (∀ x ∈ rest, P x) →
      (∀ x ∈ rest.take (runLength cmp false prev rest), ¬ cmp x prev < 0) ∧
      (rest.take (runLength cmp false prev rest)).Pairwise (fun a b => ¬ cmp b a < 0)
  | prev, [] => by simp [runLength]
  | prev, cur :: rest => by
    intro hp hrest
    have hcur : P cur := hrest cur (List.mem_cons_self _ _)
    have htail : ∀ x ∈ rest, P x := fun x hx => hrest x (List.mem_cons_of_mem _ hx)
    obtain ⟨ih1, ih2⟩ := runLength_ascending h cur rest hcur htail
    by_cases hc : cmp cur prev < 0
    · simp [runLength, hc]
    · simp only [runLength, hc, if_false, Bool.false_eq_true, List.take_succ_cons]
      refine ⟨?_, List.pairwise_cons.2 ⟨ih1, ih2⟩⟩
      intro x hx
      rcases List.mem_cons.1 hx with rfl | hx
      · exact hc
      · exact h.trans prev cur x hp hcur (htail x (List.mem_of_mem_take hx)) hc (ih1 x hx)

theorem runLength_descending {P : α → Prop} (h : ConsistentOn cmp P) :
    ∀ (prev : α) (rest : List α), P prev → (∀ x ∈ rest, P x) →
      (∀ x ∈ rest.take (runLength cmp true prev rest), cmp x prev < 0) ∧
      (rest.take (runLength cmp true prev rest)).Pairwise (fun a b => cmp b a < 0)
  | prev, [] => by simp [runLength]
  | prev, cur :: rest => by
    intro hp hrest
    have hcur : P cur := hrest cur (List.mem_cons_self _ _)
    have htail : ∀ x ∈ rest, P x := fun x hx => hrest x (List.mem_cons_of_mem _ hx)
    obtain ⟨ih1, ih2⟩ := runLength_descending h cur rest hcur htail
    by_cases hc : cmp cur prev ≥ 0
    · simp [runLength, hc]
    · simp only [runLength, hc, if_false, if_true, List.take_succ_cons]
      have hlt : cmp cur prev < 0 := by omega
      refine ⟨?_, List.pairwise_cons.2 ⟨ih1, ih2⟩⟩
      intro x hx
      rcases List.mem_cons.1 hx with rfl | hx
      · exact hlt
      · exact h.lt_trans (htail x (List.mem_of_mem_take hx)) hcur hp (ih1 x hx) hlt

theorem countAndMakeRun_sorted {P : α → Prop} (h : ConsistentOn cmp P) (l : List α)
    (hl : ∀ x ∈ l, P x) : (countAndMakeRun cmp l).1.Pairwise (fun a b => ¬ cmp b a < 0) := by
  match l, hl with
  | [], _ => simp [countAndMakeRun]
  | [a], _ => simp [countAndMakeRun]
  | a :: b :: rest, hl =>
    have ha : P a := hl a (by simp)
    have hb : P b := hl b (by simp)
    have hrest : ∀ x ∈ rest, P x := fun x hx => hl x (by simp [hx])
    simp only [countAndMakeRun]
    by_cases hd : cmp b a < 0
    · simp only [hd, decide_True, if_true]
      obtain ⟨h1, h2⟩ := runLength_descending cmp h b rest hb hrest
      rw [List.pairwise_reverse]
      have hrun : (a :: b :: List.take (runLength cmp true b rest) rest).Pairwise
          (fun x y => cmp y x < 0) := by
        refine List.pairwise_cons.2 ⟨?_, List.pairwise_cons.2 ⟨h1, h2⟩⟩
        intro x hx
        rcases List.mem_cons.1 hx with rfl | hx
        · exact hd
        · exact h.lt_trans (hrest x (List.mem_of_mem_take hx)) hb ha (h1 x hx) hd
      refine hrun.imp_of_mem ?_
      intro x y hx hy hxy
      have hmem : ∀ z ∈ a :: b :: List.take (runLength cmp true b rest) rest, P z := by
        intro z hz
        rcases List.mem_cons.1 hz with rfl | hz
        · exact ha
        · rcases List.mem_cons.1 hz with rfl | hz
          · exact hb
          · exact hrest z (List.mem_of_mem_take hz)
      exact h.asymm y x (hmem y hy) (hmem x hx) hxy
    · simp only [hd, decide_False, if_false, Bool.false_eq_true]
      obtain ⟨h1, h2⟩ := runLength_ascending cmp h b rest hb hrest
      refine List.pairwise_cons.2 ⟨?_, List.pairwise_cons.2 ⟨h1, h2⟩⟩
      intro x hx
      rcases List.mem_cons.1 hx with rfl | hx
      · exact hd
      · exact h.trans a b x ha hb (hrest x (List.mem_of_mem_take hx)) hd (h1 x hx)

/-- The iteration bound of the binary search is never the reason it stops: any two
bounds that are at least the width of the interval give the same insertion point. -/
theorem findInsertionPoint_fuel (pivot : α) (arr : List α) :
    ∀ (fuel fuel' left right : Nat), right - left ≤ fuel → right - left ≤ fuel' →
      findInsertionPoint cmp pivot arr fuel left right
        = findInsertionPoint cmp pivot arr fuel' left right
  | 0, 0, _, _ => fun _ _ => rfl
  | 0, fuel' + 1, left, right => by
    intro h _
    have : ¬ left < right := by omega
    simp [findInsertionPoint, this]
  | fuel + 1, 0, left, right => by
    intro _ h
    have : ¬ left < right := by omega
    simp [findInsertionPoint, this]
  | fuel + 1, fuel' + 1, left, right => by
    intro h h'
    simp only [findInsertionPoint]
    by_cases hlr : left < right
    · simp only [hlr, if_true]
      cases arr[left + (right - left) / 2]? with
      | none => rfl
      | some x =>
        dsimp only
        split
        · exact findInsertionPoint_fuel pivot arr fuel fuel' _ _ (by omega) (by omega)
        · exact findInsertionPoint_fuel pivot arr fuel fuel' _ _ (by omega) (by omega)
    · simp [hlr]

theorem findInsertionPoint_spec {P : α → Prop} (h : ConsistentOn cmp P) (pivot : α)
    (arr : List α) (hp : P pivot) (harr : ∀ x ∈ arr, P x)
    (hsorted : arr.Pairwise (fun a b => ¬ cmp b a < 0)) :
    ∀ (fuel left right : Nat), left ≤ right → right ≤ arr.length → right - left ≤ fuel →
      (∀ x ∈ arr.take left, ¬ cmp pivot x < 0) → (∀ x ∈ arr.drop right, cmp pivot x < 0) →
      (∀ x ∈ arr.take (findInsertionPoint cmp pivot arr fuel left right), ¬ cmp pivot x < 0) ∧
      (∀ x ∈ arr.drop (findInsertionPoint cmp pivot arr fuel left right), cmp pivot x < 0)
  | 0, left, right => by
    intro h1 _ h3 h4 h5
    have : left = right := by omega
    subst this
    exact ⟨h4, h5⟩
  | fuel + 1, left, right => by
    intro h1 h2 h3 h4 h5
    simp only [findInsertionPoint]
    by_cases hlr : left < right
    · simp only [hlr, if_true]
      have hmid : left + (right - left) / 2 < arr.length := by omega
      rw [List.getElem?_eq_getElem hmid]
      simp only
      have hsplit : arr = arr.take (left + (right - left) / 2) ++
          arr[left + (right - left) / 2] :: arr.drop (left + (right - left) / 2 + 1) := by
        rw [← List.drop_eq_getElem_cons hmid, List.take_append_drop]
      have hx : P arr[left + (right - left) / 2] := harr _ (List.getElem_mem _)
      have hs := hsorted
      rw [hsplit, List.pairwise_append, List.pairwise_cons] at hs
      obtain ⟨_, ⟨hafter, _⟩, hbefore⟩ := hs
      by_cases hc : cmp pivot arr[left + (right - left) / 2] < 0
      · simp only [hc, if_true]
        refine findInsertionPoint_spec h pivot arr hp harr hsorted fuel left _
          (by omega) (by omega) (by omega) h4 ?_
        · intro y hy
          rw [List.drop_eq_getElem_cons hmid] at hy
          rcases List.mem_cons.1 hy with rfl | hy
          · exact hc
          · by_contra hcon
            exact h.trans _ y pivot hx (harr y (List.mem_of_mem_drop hy)) hp (hafter y hy) hcon hc
      · simp only [hc, if_false]
        refine findInsertionPoint_spec h pivot arr hp harr hsorted fuel _ right
          (by omega) h2 (by omega) ?_ h5
        · intro y hy
          rw [List.take_succ, List.getElem?_eq_getElem hmid] at hy
          simp only [Option.toList, List.mem_append, List.mem_singleton] at hy
          rcases hy with hy | rfl
          · exact h.trans y _ pivot (harr y (List.mem_of_mem_take hy)) hx hp
              (hbefore y hy _ (List.mem_cons_self _ _)) hc
          · exact hc
    · have : left = right := by omega
      subst this
      simp only [hlr, if_false]
      exact ⟨h4, h5⟩

theorem binaryInsertionSort_sorted {P : α → Prop} (h : ConsistentOn cmp P) :
    ∀ (rest sorted : List α), (∀ x ∈ sorted, P x) → (∀ x ∈ rest, P x) →
      sorted.Pairwise (fun a b => ¬ cmp b a < 0) →
      (binaryInsertionSort cmp sorted rest).Pairwise (fun a b => ¬ cmp b a < 0)
  | [], sorted => by
    intro _ _ hs
    simpa [binaryInsertionSort] using hs
  | pivot :: rest, sorted => by
    intro hsP hrP hs
    have hp : P pivot := hrP pivot (List.mem_cons_self _ _)
    simp only [binaryInsertionSort]
    obtain ⟨hlo, hhi⟩ := findInsertionPoint_spec cmp h pivot sorted hp hsP hs sorted.length 0
      sorted.length (Nat.zero_le _) (Nat.le_refl _) (by omega) (by simp) (by simp)
    have hs2 := hs
    rw [← List.take_append_drop (findInsertionPoint cmp pivot sorted sorted.length 0 sorted.length)
      sorted, List.pairwise_append] at hs2
    obtain ⟨hs_lo, hs_hi, hs_cross⟩ := hs2
    refine binaryInsertionSort_sorted h rest _ ?_ (fun x hx => hrP x (List.mem_cons_of_mem _ hx)) ?_
    · intro x hx
      rcases List.mem_append.1 hx with hx | hx
      · exact hsP x (List.mem_of_mem_take hx)
      · rcases List.mem_cons.1 hx with rfl | hx
        · exact hp
        · exact hsP x (List.mem_of_mem_drop hx)
    · rw [List.pairwise_append, List.pairwise_cons]
      refine ⟨hs_lo, ⟨?_, hs_hi⟩, ?_⟩
      · intro y hy
        exact h.asymm pivot y hp (hsP y (List.mem_of_mem_drop hy)) (hhi y hy)
      · intro x hx y hy
        rcases List.mem_cons.1 hy with rfl | hy
        · exact hlo x hx
        · exact hs_cross x hx y hy

/-- On elements that the comparator orders consistently, the sort puts no element
before one that the comparator places before it. -/
theorem arraySort_sorted {P : α → Prop} (h : ConsistentOn cmp P) (l : List α)
    (hl : ∀ x ∈ l, P x) : (arraySort cmp l).Pairwise (fun a b => ¬ cmp b a < 0) := by
  have hperm := countAndMakeRun_perm cmp l
  refine binaryInsertionSort_sorted cmp h _ _ ?_ ?_ (countAndMakeRun_sorted cmp h l hl)
  · intro x hx
    exact hl x (hperm.subset (List.mem_append_left _ hx))
  · intro x hx
    exact hl x (hperm.subset (List.mem_append_right _ hx))

theorem runLength_eq_length :
    ∀ (prev : α) (rest : List α), rest.Chain (fun a b => ¬ cmp b a < 0) prev →
      runLength cmp false prev rest = rest.length
  | _, [] => by simp [runLength]
  | prev, cur :: rest => by
    intro h
    obtain ⟨h1, h2⟩ := List.chain_cons.1 h
    simp only [runLength, h1, if_false, Bool.false_eq_true, List.length_cons,
      Nat.add_right_cancel_iff]
    exact runLength_eq_length cur rest h2

/-- An array in which the comparator places no element before another is left as it is. -/
theorem arraySort_eq_self (l : List α) (h : ∀ a ∈ l, ∀ b ∈ l, ¬ cmp a b < 0) :
    arraySort cmp l = l := by
  match l, h with
  | [], _ => simp [arraySort, countAndMakeRun, binaryInsertionSort]
  | [a], _ => simp [arraySort, countAndMakeRun, binaryInsertionSort]
  | a :: b :: rest, h =>
    have hd : ¬ cmp b a < 0 := h b (by simp) a (by simp)
    have hchain : rest.Chain (fun x y => ¬ cmp y x < 0) b := by
      have hpw : (b :: rest).Pairwise (fun x y => ¬ cmp y x < 0) := by
        rw [List.pairwise_iff_forall_sublist]
        intro x y hxy
        have hx : x ∈ b :: rest := hxy.subset (by simp)
        have hy : y ∈ b :: rest := hxy.subset (by simp)
        exact h y (List.mem_cons_of_mem _ hy) x (List.mem_cons_of_mem _ hx)
      exact hpw.chain
    have hn := runLength_eq_length cmp b rest hchain
    simp [arraySort, countAndMakeRun, hd, hn, binaryInsertionSort]

/-- The sort rearranges the array: no element is lost, added or duplicated. -/
theorem arraySort_perm (l : List α) : (arraySort cmp l).Perm l :=
  (binaryInsertionSort_perm cmp _ _).trans (countAndMakeRun_perm cmp l)

theorem mem_arraySort {l : List α} {a : α} : a ∈ arraySort cmp l ↔ a ∈ l :=
  (arraySort_perm cmp l).mem_iff

end SortFacts

/-! ## Facts about string comparison -/

theorem lexLt_asymm : ∀ (a b : List Nat), lexLt a b = true → lexLt b a = false
  | _, [] => by simp [lexLt]
  | [], _ :: _ => by simp [lexLt]
  | a :: as, b :: bs => by
    have ih := lexLt_asymm as bs
    simp only [lexLt, Bool.or_eq_true, Bool.and_eq_true, decide_eq_true_eq, beq_iff_eq,
      Bool.or_eq_false_iff, Bool.and_eq_false_imp, decide_eq_false_iff_not]
    rintro (h | ⟨h1, h2⟩)
    · exact ⟨by omega, fun h' => by omega⟩
    · exact ⟨by omega, fun _ => ih h2⟩

theorem lexLt_not_trans : ∀ (a b c : List Nat), lexLt b a = false → lexLt c b = false →
    lexLt c a = false
  | [], _, _ => by simp [lexLt]
  | _ :: _, [], _ => by simp [lexLt]
  | _ :: _, _ :: _, [] => by simp [lexLt]
  | a :: as, b :: bs, c :: cs => by
    have ih := lexLt_not_trans as bs cs
    simp only [lexLt, Bool.or_eq_false_iff, Bool.and_eq_false_imp, decide_eq_false_iff_not,
      beq_iff_eq]
    rintro ⟨h1, h2⟩ ⟨h3, h4⟩
    refine ⟨by omega, fun h => ?_⟩
    have hcb : c = b := by omega
    have hba : b = a := by omega
    exact ih (h2 hba) (h4 hcb)

theorem compareEntries_lt_iff {a b : DirectoryEntry} (ha : a.isDirectory = false) :
    compareEntries a b < 0 ↔ strLt a.name b.name = true := by
  unfold compareEntries
  rw [ha]
  by_cases h : strLt a.name b.name = true <;> simp [h]

theorem compareEntries_consistent_on_files :
    ConsistentOn compareEntries (fun e => e.isDirectory = false) where
  asymm := by
    intro a b ha hb h
    rw [compareEntries_lt_iff ha] at h
    rw [compareEntries_lt_iff hb]
    simp [strLt, lexLt_asymm _ _ h]
  trans := by
    intro a b c ha hb hc h1 h2
    rw [compareEntries_lt_iff hb, Bool.not_eq_true] at h1
    rw [compareEntries_lt_iff hc, Bool.not_eq_true] at h2
    rw [compareEntries_lt_iff hc, Bool.not_eq_true]
    exact lexLt_not_trans _ _ _ h1 h2

/-! ## Facts about the listing -/

theorem listings_eq (host : Host) (s : Session) (pathName : Str)
    (results : List DirectoryEntry) :
    listings host s pathName results =
      listingHeader s pathName ++ (visibleEntries s results).map (entryLine host s pathName)
        ++ bookmarkSection host s := by
  unfold listings listingHeader bookmarkSection
  by_cases h1 : dirname pathName ≠ pathName <;> by_cases h2 : s.showHelp = true <;>
    by_cases h3 : s.showBookmarks = true ∧ s.bookmarks.length > 0 <;> simp [h1, h2, h3]

theorem mem_visibleEntries (s : Session) (results : List DirectoryEntry) (e : DirectoryEntry) :
    e ∈ visibleEntries s results ↔
      e ∈ results ∧ (s.showHidden = true ∨ startsWith e.name ['.'] = false) := by
  unfold visibleEntries
  rw [mem_arraySort]
  by_cases h : s.showHidden = true
  · simp [h]
  · simp [h, List.mem_filter]

/-! ## Facts about the status suffix -/

theorem statusSuffixAt_iff : ∀ (s : Str), statusSuffixAt s = true ↔
    ∃ ws c, s = ws ++ [c] ∧ ws ≠ [] ∧ (∀ w ∈ ws, isWhiteSpace w = true)
      ∧ isStatusLetter c = true
  | [] => by simp [statusSuffixAt]
  | a :: cs => by
    have ih := statusSuffixAt_iff cs
    constructor
    · intro h
      simp only [statusSuffixAt, Bool.and_eq_true, Bool.or_eq_true] at h
      obtain ⟨ha, h | h⟩ := h
      · obtain ⟨ws, c, rfl, _, hws, hc⟩ := ih.1 h
        refine ⟨a :: ws, c, rfl, by simp, ?_, hc⟩
        intro w hw
        rcases List.mem_cons.1 hw with rfl | hw
        · exact ha
        · exact hws w hw
      · match cs, h with
        | [d], h => exact ⟨[a], d, rfl, by simp, by simpa using ha, h⟩
    · rintro ⟨ws, c, heq, hne, hws, hc⟩
      match ws, hne, heq, hws with
      | w :: ws', _, heq, hws =>
        simp only [List.cons_append, List.cons.injEq] at heq
        obtain ⟨rfl, rfl⟩ := heq
        simp only [statusSuffixAt, Bool.and_eq_true, Bool.or_eq_true]
        refine ⟨hws a (List.mem_cons_self _ _), ?_⟩
        match ws', hws with
        | [], _ => exact Or.inr hc
        | w' :: ws'', hws =>
          exact Or.inl (ih.2 ⟨w' :: ws'', c, rfl, by simp, fun x hx =>
            hws x (List.mem_cons_of_mem _ hx), hc⟩)

theorem removeStatusSuffix_append_aux : ∀ (pre ws : Str) (c : Char),
    (∀ p, pre.getLast? = some p → isWhiteSpace p = false) → ws ≠ [] →
    (∀ w ∈ ws, isWhiteSpace w = true) → isStatusLetter c = true →
    removeStatusSuffix (pre ++ ws ++ [c]) = pre
  | [], ws, c => by
    intro _ hne hws hc
    have h : statusSuffixAt (ws ++ [c]) = true :=
      (statusSuffixAt_iff _).2 ⟨ws, c, rfl, hne, hws, hc⟩
    match hw : ws ++ [c] with
    | [] => simp at hw
    | x :: xs =>
      rw [hw] at h
      simp [removeStatusSuffix, h]
  | p :: ps, ws, c => by
    intro hlast hne hws hc
    have hno : statusSuffixAt (p :: ps ++ ws ++ [c]) = false := by
      rw [Bool.eq_false_iff]
      intro h
      obtain ⟨ws2, c2, heq, _, hws2, _⟩ := (statusSuffixAt_iff _).1 h
      have h2 := List.append_inj' heq rfl
      have hmem : (p :: ps).getLast (by simp) ∈ ws2 := by
        rw [← h2.1]
        exact List.mem_append_left _ (List.getLast_mem _)
      have := hlast _ (List.getLast?_eq_getLast _ (by simp))
      rw [hws2 _ hmem] at this
      exact absurd this (by decide)
    have ih := removeStatusSuffix_append_aux ps ws c (by
      intro q hq
      refine hlast q ?_
      match ps, hq with
      | r :: rs, hq => simpa [List.getLast?_cons_cons] using hq) hne hws hc
    simp only [List.cons_append] at hno ⊢
    simp only [removeStatusSuffix, hno, Bool.false_eq_true, if_false]
    rw [ih]

theorem removeStatusSuffix_append (pre ws : Str) (c : Char)
    (hpre : endsInWhiteSpace pre = false) (hne : ws ≠ [])
    (hws : ∀ w ∈ ws, isWhiteSpace w = true) (hc : isStatusLetter c = true) :
    removeStatusSuffix (pre ++ ws ++ [c]) = pre := by
  refine removeStatusSuffix_append_aux pre ws c ?_ hne hws hc
  intro p hp
  simpa [endsInWhiteSpace, hp] using hpre

theorem ordinalHost_lt_iff (x y : Str) :
    ordinalHost.localeCompare x y < 0 ↔ strLt x y = true := by
  simp only [ordinalHost]
  by_cases hxy : strLt x y = true
  · simp [hxy]
  · by_cases hyx : strLt y x = true <;> simp [hxy, hyx]

theorem ordinalHost_consistent : ConsistentOn ordinalHost.localeCompare (fun _ => True) where
  asymm := by
    intro a b _ _ h
    rw [ordinalHost_lt_iff] at h ⊢
    simp [strLt, lexLt_asymm _ _ h]
  trans := by
    intro a b c _ _ _ h1 h2
    rw [ordinalHost_lt_iff, Bool.not_eq_true] at h1 h2 ⊢
    exact lexLt_not_trans _ _ _ h1 h2

theorem endsInStatusSuffix_append (c : Char) (hc : isStatusLetter c = true) :
    ∀ (ws : Str), ws ≠ [] → (∀ w ∈ ws, isWhiteSpace w = true) →
      endsInStatusSuffix (ws ++ [c]) = true
  | [], h, _ => absurd rfl h
  | [w], _, hws => by simp [endsInStatusSuffix, hc, hws w (List.mem_cons_self _ _)]
  | w :: v :: vs, _, hws => by
    have ih := endsInStatusSuffix_append c hc (v :: vs) (by simp)
      (fun x hx => hws x (List.mem_cons_of_mem _ hx))
    match hvs : vs ++ [c] with
    | [] => simp at hvs
    | y :: ys =>
      simp only [List.cons_append, hvs] at ih ⊢
      simpa [endsInStatusSuffix] using ih

theorem endsInStatusSuffix_of_statusSuffixAt (s : Str) (h : statusSuffixAt s = true) :
    endsInStatusSuffix s = true := by
  obtain ⟨ws, c, rfl, hne, hws, hc⟩ := (statusSuffixAt_iff _).1 h
  exact endsInStatusSuffix_append c hc ws hne hws

theorem removeStatusSuffix_eq_self : ∀ (s : Str), endsInStatusSuffix s = false →
    removeStatusSuffix s = s
  | [] => by simp [removeStatusSuffix]
  | a :: cs => by
    intro h
    have hno : statusSuffixAt (a :: cs) = false := by
      rw [Bool.eq_false_iff]
      intro hs
      rw [endsInStatusSuffix_of_statusSuffixAt _ hs] at h
      exact absurd h (by decide)
    have hcs : endsInStatusSuffix cs = false := by
      match cs, h with
      | [], _ => rfl
      | [_], _ => rfl
      | b :: c :: rest, h => simpa [endsInStatusSuffix] using h
    simp [removeStatusSuffix, hno, removeStatusSuffix_eq_self cs hcs]

/-! ## Facts about the line classification -/

theorem includes_cons_pair (c x y : Char) (s : Str) :
    includes (c :: s) [x, y] = ((x == c && s.head? == some y) || includes s [x, y]) := by
  cases s with
  | nil => simp [includes, List.isPrefixOf]
  | cons d t =>
    simp only [includes, List.isPrefixOf, List.head?_cons, Bool.and_true]
    by_cases h : y = d
    · subst h
      simp
    · have e1 : (y == d) = false := by simp [h]
      have e2 : (some d == some y) = false := by
        rw [beq_eq_false_iff_ne]
        intro e
        exact h (Option.some.inj e).symm
      simp [e1, e2]

theorem includes_append_pair (x y : Char) : ∀ (a b : Str),
    includes (a ++ b) [x, y] = true →
      includes a [x, y] = true ∨ includes b [x, y] = true
        ∨ (a.getLast? = some x ∧ b.head? = some y)
  | [], b => by
    intro h
    exact Or.inr (Or.inl (by simpa using h))
  | c :: a, b => by
    intro h
    rw [List.cons_append, includes_cons_pair, Bool.or_eq_true, Bool.and_eq_true] at h
    rcases h with ⟨h1, h2⟩ | h
    · cases a with
      | nil =>
        refine Or.inr (Or.inr ⟨?_, ?_⟩)
        · simpa using (beq_iff_eq.1 h1).symm
        · simpa using h2
      | cons d t =>
        refine Or.inl ?_
        rw [includes_cons_pair, Bool.or_eq_true, Bool.and_eq_true]
        exact Or.inl ⟨h1, by simpa using h2⟩
    · rcases includes_append_pair x y a b h with h | h | ⟨h1, h2⟩
      · refine Or.inl ?_
        rw [includes_cons_pair, Bool.or_eq_true]
        exact Or.inr h
      · exact Or.inr (Or.inl h)
      · refine Or.inr (Or.inr ⟨?_, h2⟩)
        cases a with
        | nil => simp at h1
        | cons d t => simpa [List.getLast?_cons_cons] using h1

theorem takeWhile_append_of_not_mem (key rest : Str) (h : ']' ∉ key) :
    (key ++ ']' :: rest).takeWhile (fun x => x != ']') = key
      ∧ (key ++ ']' :: rest).dropWhile (fun x => x != ']') = ']' :: rest := by
  induction key with
  | nil => simp
  | cons c cs ih =>
    have hc : c ≠ ']' := fun e => h (by simp [e])
    have hcs : ']' ∉ cs := fun e => h (List.mem_cons_of_mem _ e)
    obtain ⟨ih1, ih2⟩ := ih hcs
    simp [List.takeWhile_cons, List.dropWhile_cons, hc, ih1, ih2]

theorem bookmarkMatch_bookmarkLine (key path : Str) (hkey : key ≠ []) (hbr : ']' ∉ key)
    (habs : path.head? = some '/') (hlt : ∀ c ∈ path, isLineTerminator c = false) :
    bookmarkMatch (bookmarkLine (key, path)) = some (key, path ++ ['/']) := by
  cases path with
  | nil => simp at habs
  | cons p ps =>
    simp only [List.head?_cons, Option.some.injEq] at habs
    subst habs
    obtain ⟨h1, h2⟩ := takeWhile_append_of_not_mem key (' ' :: '/' :: (ps ++ ['/'])) hbr
    have hline : bookmarkLine (key, '/' :: ps)
        = '[' :: (key ++ ']' :: ' ' :: '/' :: (ps ++ ['/'])) := by
      simp [bookmarkLine]
    have hall : ∀ c ∈ ps, isLineTerminator c = false :=
      fun c hc => hlt c (List.mem_cons_of_mem _ hc)
    have hrest : ('/' :: (ps ++ ['/'])).all (fun c => !isLineTerminator c) = true := by
      rw [List.all_eq_true]
      intro c hc
      rcases List.mem_cons.1 hc with rfl | hc
      · decide
      · rcases List.mem_append.1 hc with hc | hc
        · simp [hall c hc]
        · rw [List.mem_singleton.1 hc]
          decide
    have htw : List.takeWhile isWhiteSpace (' ' :: '/' :: (ps ++ ['/'])) = [' '] := by
      have hws : isWhiteSpace '/' = false := by decide
      have hsp : isWhiteSpace ' ' = true := by decide
      simp [List.takeWhile_cons, hws, hsp]
    rw [hline]
    unfold bookmarkMatch
    simp only [if_true]
    rw [h1, h2]
    dsimp only
    rw [htw]
    simp only [hkey, if_false, List.length_singleton, bookmarkRest, List.drop_succ_cons,
      List.drop_zero, hrest]
    simp

theorem isNonPathLine_bookmarkLine (key path : Str)
    (hk : includes key ": ".toList = false) (hp : includes path ": ".toList = false) :
    isNonPathLine (bookmarkLine (key, path)) = false := by
  have hline : bookmarkLine (key, path) = ('[' :: key) ++ (']' :: ' ' :: (path ++ ['/'])) := by
    simp [bookmarkLine]
  have hpair : ": ".toList = [':', ' '] := rfl
  rw [hpair] at hk hp
  have hinc : includes (bookmarkLine (key, path)) [':', ' '] = false := by
    rw [Bool.eq_false_iff]
    intro h
    rw [hline] at h
    rcases includes_append_pair _ _ _ _ h with h | h | ⟨_, h⟩
    · rw [includes_cons_pair, hk] at h
      simp at h
    · rw [includes_cons_pair, includes_cons_pair] at h
      have h' : includes (path ++ ['/']) [':', ' '] = true := by simpa using h
      rcases includes_append_pair _ _ _ _ h' with h | h | ⟨_, h⟩
      · rw [hp] at h
        exact absurd h (by decide)
      · exact absurd h (by decide)
      · exact absurd h (by decide)
    · simp at h
  have hsep : bookmarkLine (key, path) ≠ "-- BOOKMARKS --".toList := by
    rw [hline]
    intro h
    have := congrArg List.head? h
    simp at this
  have hpre : startsWith (bookmarkLine (key, path)) "vsnetrw".toList = false := by
    rw [hline]
    rfl
  simp only [isNonPathLine, hpair, hinc, hpre, Bool.or_false, decide_eq_false_iff_not]
  exact hsep

/-! ## Facts about `path.join` -/

theorem segments_ne_nil : ∀ (s : Str), segments s ≠ []
  | [] => by simp [segments]
  | c :: cs => by
    simp only [segments]
    split
    · simp
    · split <;> simp

theorem segments_append_slash : ∀ (a b : Str),
    segments (a ++ '/' :: b) = segments a ++ segments b
  | [], b => by simp [segments]
  | c :: a, b => by
    have ih := segments_append_slash a b
    simp only [List.cons_append, segments]
    by_cases hc : c = '/'
    · simp [hc, ih]
    · simp only [hc, if_false, List.append_eq]
      rw [ih]
      obtain ⟨x, xs, hs⟩ := List.exists_cons_of_ne_nil (segments_ne_nil a)
      rw [hs]
      rfl

theorem segments_of_no_slash : ∀ (name : Str), '/' ∉ name → segments name = [name]
  | [], _ => by simp [segments]
  | c :: cs, h => by
    have hc : c ≠ '/' := fun e => h (by simp [e])
    have ih := segments_of_no_slash cs (fun e => h (List.mem_cons_of_mem _ e))
    simp [segments, hc, ih]

theorem normalizeStep_of_entryName (b : Bool) (res : List Str) (name : Str)
    (h : isEntryName name = true) : normalizeStep b res name = name :: res := by
  simp only [isEntryName, Bool.and_eq_true, bne_iff_ne, ne_eq] at h
  obtain ⟨⟨⟨h1, _⟩, h2⟩, h3⟩ := h
  simp [normalizeStep, h1, h2, h3]

theorem intercalate_cons_cons (x y : Str) (l : List Str) :
    ['/'].intercalate (x :: y :: l) = x ++ '/' :: ['/'].intercalate (y :: l) := by
  simp [List.intercalate, List.intersperse]

theorem intercalate_concat (xs : List Str) (name : Str) :
    ['/'].intercalate (xs ++ [name])
      = if xs = [] then name else ['/'].intercalate xs ++ '/' :: name := by
  induction xs with
  | nil => simp [List.intercalate]
  | cons x xs ih =>
    cases xs with
    | nil => simp [List.intercalate]
    | cons y ys =>
      simp only [reduceCtorEq, if_false] at ih ⊢
      rw [List.cons_append, List.cons_append, intercalate_cons_cons, ← List.cons_append, ih,
        intercalate_cons_cons]
      simp

theorem normalize_ends_with_name (j name : Str) (segs : List Str)
    (hname : isEntryName name = true) (hsegs : segments j = segs ++ [name])
    (hlast : j.getLast? = name.getLast?) :
    ∃ pre, normalize j = pre ++ name ∧ (pre = [] ∨ pre.getLast? = some '/') := by
  have hv := hname
  simp only [isEntryName, Bool.and_eq_true, bne_iff_ne, ne_eq, Bool.not_eq_true',
    List.contains_eq_any_beq, List.any_eq_false, beq_iff_eq] at hv
  obtain ⟨⟨⟨hne, hslash⟩, _⟩, _⟩ := hv
  have hj : j ≠ [] := by
    intro e
    rw [e] at hlast
    cases name with
    | nil => exact hne rfl
    | cons c cs => simp [List.getLast?_cons] at hlast
  have htrail : ¬ j.getLast? = some '/' := by
    rw [hlast]
    intro e
    have := List.mem_of_getLast?_eq_some e
    exact hslash '/' this rfl
  have hp : ∀ b, normalizeString j b
      = ['/'].intercalate (((segs.foldl (normalizeStep b) []).reverse) ++ [name]) := by
    intro b
    simp [normalizeString, hsegs, List.foldl_append, normalizeStep_of_entryName b _ name hname]
  unfold normalize
  simp only [hj, if_false, htrail, hp, intercalate_concat]
  generalize (List.foldl (normalizeStep (!decide (j.head? = some '/'))) [] segs).reverse = xs
  by_cases habs : j.head? = some '/'
  · by_cases hxs : xs = []
    · exact ⟨['/'], by simp [habs, hxs, hne], Or.inr rfl⟩
    · exact ⟨('/' :: ['/'].intercalate xs) ++ ['/'], by simp [habs, hxs],
        Or.inr (List.getLast?_concat _)⟩
  · by_cases hxs : xs = []
    · exact ⟨[], by simp [habs, hxs, hne], Or.inl rfl⟩
    · exact ⟨['/'].intercalate xs ++ ['/'], by simp [habs, hxs],
        Or.inr (List.getLast?_concat _)⟩

/-- The joined path of a directory and an entry name ends with the name, and what
precedes the name is empty or ends with a slash. -/
theorem join_entryName (base name : Str) (hname : isEntryName name = true) :
    ∃ pre, join [base, name] = pre ++ name ∧ (pre = [] ∨ pre.getLast? = some '/') := by
  have hv := hname
  simp only [isEntryName, Bool.and_eq_true, bne_iff_ne, ne_eq, Bool.not_eq_true',
    List.contains_eq_any_beq, List.any_eq_false, beq_iff_eq] at hv
  obtain ⟨⟨⟨hne, hslash⟩, _⟩, _⟩ := hv
  have hno : '/' ∉ name := fun h => hslash '/' h rfl
  by_cases hb : base = []
  · have hj : join [base, name] = normalize name := by
      simp [join, hb, hne, List.intercalate]
    rw [hj]
    exact normalize_ends_with_name name name [] hname (by simp [segments_of_no_slash name hno]) rfl
  · have hj : join [base, name] = normalize (base ++ '/' :: name) := by
      simp [join, hb, hne, List.intercalate]
    rw [hj]
    refine normalize_ends_with_name _ name (segments base) hname ?_ ?_
    · rw [segments_append_slash, segments_of_no_slash name hno]
    · cases name with
      | nil => exact absurd rfl hne
      | cons c cs =>
        rw [show base ++ '/' :: c :: cs = (base ++ ['/']) ++ c :: cs by simp,
          List.getLast?_append_cons]

/-! ## Facts about entry lines -/

theorem getGitStatus_cases (host : Host) (filePath : Str) :
    getGitStatus host filePath = [] ∨
      ∃ x, isStatusLetter x = true ∧ getGitStatus host filePath = [x] := by
  have hM : ∃ x, isStatusLetter x = true ∧ ['M'] = [x] := ⟨'M', by decide, rfl⟩
  have hA : ∃ x, isStatusLetter x = true ∧ ['A'] = [x] := ⟨'A', by decide, rfl⟩
  have hD : ∃ x, isStatusLetter x = true ∧ ['D'] = [x] := ⟨'D', by decide, rfl⟩
  have hU : ∃ x, isStatusLetter x = true ∧ ['U'] = [x] := ⟨'U', by decide, rfl⟩
  unfold getGitStatus
  split
  · exact Or.inl rfl
  · dsimp only
    split
    · rename_i symbol hsym
      split at hsym
      · exact absurd hsym (by simp)
      · split at hsym
        · rw [← Option.some.inj hsym]
          exact Or.inr hM
        · split at hsym
          · rw [← Option.some.inj hsym]
            exact Or.inr hA
          · split at hsym
            · rw [← Option.some.inj hsym]
              exact Or.inr hD
            · exact absurd hsym (by simp)
    · split
      · exact Or.inl rfl
      · split
        · exact Or.inr hM
        · split
          · exact Or.inr hA
          · split
            · exact Or.inr hD
            · split
              · exact Or.inr hU
              · exact Or.inl rfl

theorem removeStatusSuffix_line (fileName st : Str)
    (hst : st = [] ∨ ∃ x, isStatusLetter x = true ∧ st = [x])
    (h1 : endsInStatusSuffix fileName = false)
    (h2 : st ≠ [] → endsInWhiteSpace fileName = false) :
    removeStatusSuffix (if st ≠ [] then fileName ++ ' ' :: st else fileName) = fileName := by
  rcases hst with rfl | ⟨x, hx, rfl⟩
  · simpa using removeStatusSuffix_eq_self fileName h1
  · have := removeStatusSuffix_append fileName [' '] x (h2 (by simp)) (by simp)
      (by intro w hw; rw [List.mem_singleton.1 hw]; decide) hx
    simpa using this

theorem endsInStatusSuffix_cons (p : Char) : ∀ (l : Str), 2 ≤ l.length →
    endsInStatusSuffix (p :: l) = endsInStatusSuffix l
  | [], h => by simp at h
  | [_], h => by simp at h
  | _ :: _ :: _, _ => by simp [endsInStatusSuffix]

theorem endsInStatusSuffix_append_left : ∀ (pre l : Str), 2 ≤ l.length →
    endsInStatusSuffix (pre ++ l) = endsInStatusSuffix l
  | [], _, _ => rfl
  | p :: pre, l, h => by
    rw [List.cons_append, endsInStatusSuffix_cons p _ (by simp; omega)]
    exact endsInStatusSuffix_append_left pre l h

theorem endsInStatusSuffix_concat (l : Str) (c : Char) (hc : isStatusLetter c = false) :
    endsInStatusSuffix (l ++ [c]) = false := by
  match l with
  | [] => rfl
  | [w] => simp [endsInStatusSuffix, hc]
  | a :: b :: rest =>
    have h2 : (a :: b :: rest ++ [c]) = (a :: (b :: rest).dropLast) ++ [(b :: rest).getLast
        (by simp), c] := by
      rw [show a :: b :: rest ++ [c] = a :: ((b :: rest) ++ [c]) by simp]
      conv_lhs => rw [← List.dropLast_append_getLast (l := b :: rest) (by simp)]
      simp
    rw [h2, endsInStatusSuffix_append_left _ _ (by simp)]
    simp [endsInStatusSuffix, hc]

theorem endsInStatusSuffix_path (pre name : Str) (hne : name ≠ [])
    (hpre : pre = [] ∨ pre.getLast? = some '/') :
    endsInStatusSuffix (pre ++ name) = endsInStatusSuffix name := by
  rcases hpre with rfl | hpre
  · rfl
  · match name, hne with
    | [c], _ =>
      obtain ⟨q, rfl⟩ : ∃ q, pre = q ++ ['/'] := by
        cases hq : pre.getLast? with
        | none => rw [hq] at hpre; exact absurd hpre (by simp)
        | some x =>
          have hne' : pre ≠ [] := by
            intro e
            rw [e] at hq
            simp at hq
          refine ⟨pre.dropLast, ?_⟩
          have := List.dropLast_append_getLast hne'
          rw [List.getLast?_eq_getLast _ hne'] at hpre
          rw [Option.some.inj hpre] at this
          exact this.symm
      rw [List.append_assoc, endsInStatusSuffix_append_left _ _ (by simp)]
      simp [endsInStatusSuffix]
      intro h
      exact absurd h (by decide)
    | c :: d :: rest, _ => exact endsInStatusSuffix_append_left _ _ (by simp)

theorem endsInWhiteSpace_path (pre name : Str) (hne : name ≠ []) :
    endsInWhiteSpace (pre ++ name) = endsInWhiteSpace name := by
  match name, hne with
  | c :: cs, _ =>
    unfold endsInWhiteSpace
    rw [List.getLast?_append_cons]

/-! ## Facts about the commands -/

theorem mapGet_mapSet (m : List (Str × Str)) (key value : Str) :
    mapGet (mapSet m key value) key = some value := by
  unfold mapSet mapGet
  by_cases h : m.any (fun e => decide (e.1 = key)) = true
  · simp only [h, if_true]
    induction m with
    | nil => simp at h
    | cons e m ih =>
      by_cases he : e.1 = key
      · simp [List.find?, he]
      · have h' : m.any (fun e => decide (e.1 = key)) = true := by
          simpa [he] using h
        simpa [List.find?, he] using ih h'
  · simp only [h, Bool.false_eq_true, if_false]
    have hnone : ∀ e ∈ m, ¬ e.1 = key := by
      intro e he hk
      exact h (List.any_eq_true.2 ⟨e, he, by simp [hk]⟩)
    rw [List.find?_append]
    have : m.find? (fun e => decide (e.1 = key)) = none := by
      rw [List.find?_eq_none]
      intro e he
      simpa using hnone e he
    simp [this]

theorem mapGet_mapDelete (m : List (Str × Str)) (key : Str) :
    mapGet (mapDelete m key) key = none := by
  unfold mapDelete mapGet
  have : (m.filter (fun e => decide (e.1 ≠ key))).find? (fun e => decide (e.1 = key)) = none := by
    rw [List.find?_eq_none]
    intro e he
    have := (List.mem_filter.1 he).2
    simpa using this
  simp [this]

theorem thenRefresh_of_failed (before : List Call) (r : Result) (h : r.failed = true) :
    thenRefresh before r
      = { session := r.session, calls := before ++ r.calls, failed := true } := by
  simp [thenRefresh, h]

theorem saveBookmarks_of_failing_write (ed : Editor) (s : Session)
    (hc : ed.hasContext = true) (hu : ed.updateOk = false) :
    saveBookmarks ed s = ([Call.update s.bookmarks], true) := by
  simp [saveBookmarks, hc, hu]

theorem addBookmark_of_failing_write (ed : Editor) (s : Session) (key bookmarkPath : Str)
    (hc : ed.hasContext = true) (hu : ed.updateOk = false) :
    addBookmark ed s key bookmarkPath
      = { session := { s with bookmarks := mapSet s.bookmarks key bookmarkPath },
          calls := [Call.update (mapSet s.bookmarks key bookmarkPath)], failed := true } := by
  simp [addBookmark, saveBookmarks_of_failing_write ed _ hc hu]

theorem deleteBookmark_of_failing_write (ed : Editor) (s : Session) (key : Str)
    (hc : ed.hasContext = true) (hu : ed.updateOk = false) :
    deleteBookmark ed s key
      = { session := { s with bookmarks := mapDelete s.bookmarks key },
          calls := [Call.update (mapDelete s.bookmarks key)], failed := true } := by
  simp [deleteBookmark, saveBookmarks_of_failing_write ed _ hc hu]

theorem endsAtFailedWrite_of_no_write (s : Session) (calls : List Call)
    (h1 : Call.refresh ∉ calls) (h2 : ∀ b, Call.update b ∉ calls) :
    EndsAtFailedWrite { session := s, calls := calls, failed := false } :=
  ⟨h1, fun b hb => absurd hb (h2 b)⟩

theorem endsAtFailedWrite_thenRefresh (before : List Call) (r : Result)
    (h1 : Call.refresh ∉ before) (h2 : ∀ b, Call.update b ∉ before)
    (hr : r.calls = [Call.update r.session.bookmarks]) (hf : r.failed = true) :
    EndsAtFailedWrite (thenRefresh before r) := by
  rw [thenRefresh_of_failed before r hf]
  refine ⟨?_, ?_⟩
  · simp [hr, h1]
  · intro b hb
    simp only [hr, List.mem_append, List.mem_singleton] at hb
    rcases hb with hb | hb
    · exact absurd hb (h2 b)
    · simp only [Call.update.injEq] at hb
      exact ⟨rfl, hb.symm⟩

theorem deleteBookmarkCommand_of_failing_write (ed : Editor) (s : Session)
    (hc : ed.hasContext = true) (hu : ed.updateOk = false) :
    EndsAtFailedWrite (deleteBookmarkCommand ed s) := by
  unfold deleteBookmarkCommand
  split
  · exact endsAtFailedWrite_of_no_write _ _ (by simp) (by simp)
  · split
    · exact endsAtFailedWrite_of_no_write _ _ (by simp) (by simp)
    · refine endsAtFailedWrite_thenRefresh _ _ (by simp) (by simp) ?_ ?_ <;>
        rw [deleteBookmark_of_failing_write ed s _ hc hu]

theorem addBookmarkCommand_of_failing_write (ed : Editor) (s : Session) (key : Option Str)
    (hc : ed.hasContext = true) (hu : ed.updateOk = false) :
    EndsAtFailedWrite (addBookmarkCommand ed s key) := by
  unfold addBookmarkCommand
  dsimp only
  repeat' split
  all_goals
    first
    | exact endsAtFailedWrite_of_no_write _ _ (by simp) (by simp)
    | (refine endsAtFailedWrite_thenRefresh _ _ (by simp) (by simp) ?_ ?_ <;>
        rw [deleteBookmark_of_failing_write ed s _ hc hu])
    | (refine endsAtFailedWrite_thenRefresh _ _ (by simp) (by simp) ?_ ?_ <;>
        rw [addBookmark_of_failing_write ed s _ _ hc hu])

theorem jumpToBookmark_session (s : Session) (key : Str) :
    (jumpToBookmark s key).session = s := by
  unfold jumpToBookmark
  repeat' split
  all_goals rfl

theorem renameTo_session (ed : Editor) (s : Session) (before : List Call) (src dst : Str)
    (t : Option Nat) : (renameTo ed s before src dst t).session = s := by
  unfold renameTo
  dsimp only
  repeat' split
  all_goals rfl

theorem openFileUnderCursor_session (ed : Editor) (s : Session) :
    (openFileUnderCursor ed s).session = s := by
  unfold openFileUnderCursor
  dsimp only
  repeat' split
  all_goals first | rfl | exact jumpToBookmark_session _ _

theorem renameFileUnderCursor_session (ed : Editor) (s : Session) :
    (renameFileUnderCursor ed s).session = s := by
  unfold renameFileUnderCursor
  dsimp only
  repeat' split
  all_goals first | rfl | exact renameTo_session _ _ _ _ _ _

theorem deleteFileUnderCursor_session (ed : Editor) (s : Session) :
    (deleteFileUnderCursor ed s).session = s := by
  unfold deleteFileUnderCursor
  dsimp only
  repeat' split
  all_goals rfl

theorem jumpToBookmarkCommand_session (ed : Editor) (s : Session) (key : Option Str) :
    (jumpToBookmarkCommand ed s key).session = s := by
  unfold jumpToBookmarkCommand
  repeat' split
  all_goals first | rfl | exact jumpToBookmark_session _ _

theorem thenRefresh_session (before : List Call) (r : Result) :
    (thenRefresh before r).session = r.session := by
  unfold thenRefresh
  split <;> rfl

theorem deleteBookmarkCommand_initialDirectory (ed : Editor) (s : Session) :
    (deleteBookmarkCommand ed s).session.initialDirectory = s.initialDirectory := by
  unfold deleteBookmarkCommand
  repeat' split
  all_goals first | rfl | (rw [thenRefresh_session]; rfl)

theorem addBookmarkCommand_initialDirectory (ed : Editor) (s : Session) (key : Option Str) :
    (addBookmarkCommand ed s key).session.initialDirectory = s.initialDirectory := by
  unfold addBookmarkCommand
  dsimp only
  repeat' split
  all_goals first | rfl | (rw [thenRefresh_session]; rfl)

/-- Every command other than `openNewExplorer` and `openInitialDirectory` leaves
`initialDirectory` as it is; these two leave it as it is once it is set. -/
theorem perform_initialDirectory (ed : Editor) (s : Session) (op : Op) :
    ((∀ dir, op ≠ Op.openNewExplorer dir) → op ≠ Op.openInitialDirectory →
        (perform ed s op).session.initialDirectory = s.initialDirectory)
      ∧ ∀ d, s.initialDirectory = some d →
          (perform ed s op).session.initialDirectory = some d := by
  cases op with
  | toggleFullPaths => exact ⟨fun _ _ => rfl, fun d h => h⟩
  | toggleBookmarks => exact ⟨fun _ _ => rfl, fun d h => h⟩
  | toggleHelp => exact ⟨fun _ _ => rfl, fun d h => h⟩
  | toggleHidden => exact ⟨fun _ _ => rfl, fun d h => h⟩
  | openNewExplorer dir =>
    refine ⟨fun h _ => absurd rfl (h dir), fun d h => ?_⟩
    simp only [perform, openNewExplorer]
    split
    · exact h
    · simp [h]
  | openInitialDirectory =>
    refine ⟨fun _ h => absurd rfl h, fun d h => ?_⟩
    simp only [perform, openInitialDirectory, h]
  | openFileUnderCursor =>
    have := openFileUnderCursor_session ed s
    exact ⟨fun _ _ => by simp [perform, this], fun d h => by simp [perform, this, h]⟩
  | openParentDirectory => exact ⟨fun _ _ => rfl, fun d h => h⟩
  | openHomeDirectory => exact ⟨fun _ _ => rfl, fun d h => h⟩
  | renameFileUnderCursor =>
    have := renameFileUnderCursor_session ed s
    exact ⟨fun _ _ => by simp [perform, this], fun d h => by simp [perform, this, h]⟩
  | deleteFileUnderCursor =>
    have := deleteFileUnderCursor_session ed s
    exact ⟨fun _ _ => by simp [perform, this], fun d h => by simp [perform, this, h]⟩
  | addBookmarkCommand key =>
    have := addBookmarkCommand_initialDirectory ed s key
    exact ⟨fun _ _ => by simp [perform, this], fun d h => by simp [perform, this, h]⟩
  | deleteBookmarkCommand =>
    have := deleteBookmarkCommand_initialDirectory ed s
    exact ⟨fun _ _ => by simp [perform, this], fun d h => by simp [perform, this, h]⟩
  | jumpToBookmarkCommand key =>
    have := jumpToBookmarkCommand_session ed s key
    exact ⟨fun _ _ => by simp [perform, this], fun d h => by simp [perform, this, h]⟩

theorem runCommands_initialDirectory (d : Str) :
    ∀ (cmds : List (Editor × Op)) (s : Session), s.initialDirectory = some d →
      (runCommands s cmds).initialDirectory = some d
  | [], _, h => h
  | (ed, op) :: rest, s, h =>
    runCommands_initialDirectory d rest _ ((perform_initialDirectory ed s op).2 d h)

/-- The round trip of an entry line, from facts about the rendered line: when the line
is neither a non-path line nor a bookmark line, a file line in both display modes and a
directory line with full paths resolve to the joined path. -/
theorem entryLine_resolves (host : Host) (s : Session) (pathName : Str) (e : DirectoryEntry)
    (hname : isEntryName e.name = true)
    (hkind : e.isDirectory = false ∨ s.showFullPaths = true)
    (hnp : isNonPathLine (entryLine host s pathName e) = false)
    (hbm : bookmarkMatch (entryLine host s pathName e) = none)
    (hsfx : e.isDirectory = false → endsInStatusSuffix e.name = false)
    (hws : e.isDirectory = false → getGitStatus host (join [pathName, e.name]) ≠ [] →
      endsInWhiteSpace e.name = false) :
    getFilePathFromLine s (entryLine host s pathName e) pathName = join [pathName, e.name] := by
  obtain ⟨pre, hjoin, hpre⟩ := join_entryName pathName e.name hname
  have hv := hname
  simp only [isEntryName, Bool.and_eq_true, bne_iff_ne, ne_eq, Bool.not_eq_true',
    List.contains_eq_any_beq, List.any_eq_false, beq_iff_eq] at hv
  obtain ⟨⟨⟨hne, hslash⟩, _⟩, hdd⟩ := hv
  have hno : '/' ∉ e.name := fun h => hslash '/' h rfl
  have hst := getGitStatus_cases host (join [pathName, e.name])
  have hlastname : ∀ l : Str, l ++ ['/'] ≠ pre ++ e.name := by
    intro l h
    have h1 := congrArg List.getLast? h
    obtain ⟨c, cs, hcs⟩ := List.exists_cons_of_ne_nil hne
    rw [List.getLast?_concat, hcs, List.getLast?_append_cons, ← hcs] at h1
    exact hno (List.mem_of_getLast?_eq_some h1.symm)
  have hgf : getFilePathFromLine s (entryLine host s pathName e) pathName
      = resolveText s (removeStatusSuffix (entryLine host s pathName e)) pathName := by
    simp [getFilePathFromLine, hnp, hbm]
  rw [hgf]
  unfold entryLine formatEntry
  dsimp only
  by_cases hfull : s.showFullPaths = true
  · by_cases hdir : e.isDirectory = true
    · simp only [hfull, hdir, if_true]
      rw [removeStatusSuffix_line _ _ hst (endsInStatusSuffix_concat _ '/' (by decide))
        (fun _ => by unfold endsInWhiteSpace; rw [List.getLast?_concat]; decide)]
      have h1 : join [pathName, e.name] ++ ['/'] ≠ ['.', '.', '/'] := by
        rw [hjoin]
        intro h
        have h2 : pre ++ e.name = ['.', '.'] :=
          List.append_inj_left' (show pre ++ e.name ++ ['/'] = ['.', '.'] ++ ['/'] from h) rfl
        rcases hpre with rfl | hpre
        · exact hdd (by simpa using h2)
        · have hmem : '/' ∈ pre := List.mem_of_getLast?_eq_some hpre
          have : '/' ∈ ['.', '.'] := by
            rw [← h2]
            exact List.mem_append_left _ hmem
          exact absurd this (by decide)
      have h2 : endsWith (join [pathName, e.name] ++ ['/']) ['/'] = true := by
        simp [endsWith]
      simp [resolveText, h1, hfull, h2, sliceInit]
    · have hfile : e.isDirectory = false := by simpa using hdir
      simp only [hfull, hfile, if_true, Bool.false_eq_true, if_false]
      rw [removeStatusSuffix_line _ _ hst
        (by rw [hjoin, endsInStatusSuffix_path pre _ hne hpre]; exact hsfx hfile)
        (fun h => by rw [hjoin, endsInWhiteSpace_path pre _ hne]; exact hws hfile h)]
      have h1 : join [pathName, e.name] ≠ ['.', '.', '/'] := by
        rw [hjoin]
        exact fun h => hlastname ['.', '.'] h.symm
      have h2 : endsWith (join [pathName, e.name]) ['/'] = false := by
        rw [Bool.eq_false_iff]
        intro h
        simp only [endsWith, List.isSuffixOf_iff_suffix] at h
        obtain ⟨l, hl⟩ := h
        rw [hjoin] at hl
        exact hlastname l hl
      simp [resolveText, h1, hfull, h2]
  · have hrel : s.showFullPaths = false := by simpa using hfull
    have hfile : e.isDirectory = false := by
      rcases hkind with h | h
      · exact h
      · exact absurd h hfull
    simp only [hrel, hfile, Bool.false_eq_true, if_false]
    rw [removeStatusSuffix_line _ _ hst (hsfx hfile) (hws hfile)]
    have h1 : e.name ≠ ['.', '.', '/'] := by
      intro h
      rw [h] at hno
      exact hno (by decide)
    simp [resolveText, h1, hrel]

/-! ## Facts about the depth of a path -/

theorem segments_slash_free : ∀ (x : Str), ∀ seg ∈ segments x, '/' ∉ seg
  | [], seg, h => by
    simp only [segments, List.mem_singleton] at h
    simp [h]
  | c :: cs, seg, h => by
    have ih := segments_slash_free cs
    simp only [segments] at h
    by_cases hc : c = '/'
    · simp only [hc, if_true, List.mem_cons] at h
      rcases h with rfl | h
      · simp
      · exact ih seg h
    · simp only [hc, if_false] at h
      obtain ⟨x, xs, hs⟩ := List.exists_cons_of_ne_nil (segments_ne_nil cs)
      rw [hs] at h ih
      simp only [List.mem_cons] at h
      rcases h with rfl | h
      · intro hm
        rcases List.mem_cons.1 hm with e | hm
        · exact hc e.symm
        · exact ih x (List.mem_cons_self _ _) hm
      · exact ih seg (List.mem_cons_of_mem _ h)

theorem segments_intercalate : ∀ (l : List Str), (∀ x ∈ l, '/' ∉ x) → l ≠ [] →
    segments (['/'].intercalate l) = l
  | [], _, h => absurd rfl h
  | [x], hx, _ => by
    simpa [List.intercalate] using segments_of_no_slash x (hx x (List.mem_singleton_self _))
  | x :: y :: l, hx, _ => by
    rw [intercalate_cons_cons, segments_append_slash,
      segments_of_no_slash x (hx x (List.mem_cons_self _ _)),
      segments_intercalate (y :: l) (fun z hz => hx z (List.mem_cons_of_mem _ hz)) (by simp)]
    rfl

theorem foldl_normalizeStep_of_noDots (b : Bool) : ∀ (segs acc : List Str),
    (∀ seg ∈ segs, seg ≠ ['.'] ∧ seg ≠ ['.', '.']) →
    segs.foldl (normalizeStep b) acc = (segs.filter (fun seg => seg ≠ [])).reverse ++ acc
  | [], acc, _ => by simp
  | seg :: segs, acc, h => by
    have h1 := h seg (List.mem_cons_self _ _)
    have ih := foldl_normalizeStep_of_noDots b segs
    rw [List.foldl_cons]
    by_cases he : seg = []
    · rw [ih _ (fun x hx => h x (List.mem_cons_of_mem _ hx))]
      simp [normalizeStep, he]
    · rw [ih _ (fun x hx => h x (List.mem_cons_of_mem _ hx))]
      simp [normalizeStep, he, h1.1, h1.2, List.filter_cons]

theorem hasNoDotSegment_iff (path : Str) :
    hasNoDotSegment path = true ↔ ∀ seg ∈ segments path, seg ≠ ['.'] ∧ seg ≠ ['.', '.'] := by
  simp [hasNoDotSegment, List.all_eq_true]

theorem cleanSegments_append_slash (a b : Str) :
    cleanSegments (a ++ '/' :: b) = cleanSegments a ++ cleanSegments b := by
  simp [cleanSegments, segments_append_slash]

theorem hasNoDotSegment_append_slash (a b : Str) (ha : hasNoDotSegment a = true)
    (hb : hasNoDotSegment b = true) : hasNoDotSegment (a ++ '/' :: b) = true := by
  rw [hasNoDotSegment_iff] at ha hb ⊢
  intro seg hseg
  rw [segments_append_slash, List.mem_append] at hseg
  rcases hseg with h | h
  · exact ha seg h
  · exact hb seg h

theorem intercalate_ne_nil : ∀ (l : List Str), l ≠ [] → (∀ x ∈ l, x ≠ []) →
    ['/'].intercalate l ≠ []
  | [], h, _ => absurd rfl h
  | [x], _, hx => by simpa [List.intercalate] using hx x (List.mem_singleton_self _)
  | x :: y :: l, _, _ => by
    rw [intercalate_cons_cons]
    simp

/-- The normal form of an absolute path without `.` and `..` segments: its non-empty
segments, separated by single slashes, after a slash; the trailing slash is kept. -/
theorem normalize_of_noDots (j : Str) (habs : j.head? = some '/')
    (hnd : hasNoDotSegment j = true) :
    normalize j = '/' :: (['/'].intercalate (cleanSegments j)
      ++ if j.getLast? = some '/' ∧ cleanSegments j ≠ [] then ['/'] else []) := by
  have hj : j ≠ [] := by
    intro e
    rw [e] at habs
    simp at habs
  have hp : normalizeString j false = ['/'].intercalate (cleanSegments j) := by
    unfold normalizeString cleanSegments
    rw [foldl_normalizeStep_of_noDots _ _ _ ((hasNoDotSegment_iff j).1 hnd)]
    simp
  unfold normalize
  simp only [hj, if_false, habs, if_true, decide_True, Bool.not_true, hp]
  by_cases hc : cleanSegments j = []
  · simp [hc, List.intercalate]
  · have hne : ['/'].intercalate (cleanSegments j) ≠ [] := by
      refine intercalate_ne_nil _ hc ?_
      intro x hx
      simpa using (List.mem_filter.1 hx).2
    by_cases ht : j.getLast? = some '/' <;> simp [hne, hc, ht]

theorem cleanSegments_slash_cons (x : Str) : cleanSegments ('/' :: x) = cleanSegments x := by
  simp [cleanSegments, segments]

theorem cleanSegments_concat_slash (x : Str) : cleanSegments (x ++ ['/']) = cleanSegments x := by
  rw [cleanSegments_append_slash]
  simp [cleanSegments, segments]

theorem cleanSegments_intercalate (l : List Str) (hfree : ∀ x ∈ l, '/' ∉ x)
    (hne : ∀ x ∈ l, x ≠ []) : cleanSegments (['/'].intercalate l) = l := by
  by_cases hl : l = []
  · simp [hl, List.intercalate, cleanSegments, segments]
  · unfold cleanSegments
    rw [segments_intercalate l hfree hl, List.filter_eq_self]
    intro x hx
    simpa using hne x hx

theorem cleanSegments_normalize (j : Str) (habs : j.head? = some '/')
    (hnd : hasNoDotSegment j = true) : cleanSegments (normalize j) = cleanSegments j := by
  rw [normalize_of_noDots j habs hnd]
  have hfree : ∀ x ∈ cleanSegments j, '/' ∉ x := fun x hx =>
    segments_slash_free j x (List.mem_filter.1 hx).1
  have hnonempty : ∀ x ∈ cleanSegments j, x ≠ [] := fun x hx => by
    simpa using (List.mem_filter.1 hx).2
  rw [cleanSegments_slash_cons]
  split
  · rw [cleanSegments_concat_slash, cleanSegments_intercalate _ hfree hnonempty]
  · rw [List.append_nil, cleanSegments_intercalate _ hfree hnonempty]

/-- Joining a line onto an absolute directory without `.` and `..` segments, when the
line has none either, goes down by as many levels as the line has segments. -/
theorem depth_join (base line : Str) (habs : base.head? = some '/')
    (hb : hasNoDotSegment base = true) (hl : hasNoDotSegment line = true) (hne : line ≠ []) :
    depth (join [base, line]) = depth base + depth line := by
  have hbne : base ≠ [] := by
    intro e
    rw [e] at habs
    simp at habs
  have hj : join [base, line] = normalize (base ++ '/' :: line) := by
    simp [join, hbne, hne, List.intercalate]
  have habs' : (base ++ '/' :: line).head? = some '/' := by
    obtain ⟨c, cs, hcs⟩ := List.exists_cons_of_ne_nil hbne
    rw [hcs] at habs ⊢
    simpa using habs
  unfold depth
  rw [hj, cleanSegments_normalize _ habs' (hasNoDotSegment_append_slash _ _ hb hl),
    cleanSegments_append_slash, List.length_append]

theorem dirnameEnd_is_slash (path : Str) : ∀ (i : Nat) (m : Bool) (e : Nat),
    dirnameEnd path i m = some e → path[e]? = some '/'
  | 0, _, _, h => by simp [dirnameEnd] at h
  | i + 1, m, e, h => by
    simp only [dirnameEnd] at h
    split at h
    · rename_i hs
      split at h
      · rw [← Option.some.inj h]
        exact hs
      · exact dirnameEnd_is_slash path i m e h
    · exact dirnameEnd_is_slash path i false e h

theorem depth_dirname_le (base : Str) (habs : base.head? = some '/') :
    depth (dirname base) ≤ depth base := by
  have hbne : base ≠ [] := by
    intro e
    rw [e] at habs
    simp at habs
  unfold dirname
  simp only [hbne, if_false, habs, true_and]
  cases h : dirnameEnd base (base.length - 1) true with
  | none => simp [depth, cleanSegments, segments]
  | some e =>
    dsimp only
    by_cases he : e = 1
    · simp [he, depth, cleanSegments, segments]
    · simp only [he, if_false]
      have hs := dirnameEnd_is_slash base _ _ _ h
      have hlt : e < base.length := by
        by_contra hge
        rw [List.getElem?_eq_none (by omega)] at hs
        exact absurd hs (by simp)
      have hsplit : base = base.take e ++ '/' :: base.drop (e + 1) := by
        have h1 := List.take_append_drop e base
        rw [List.drop_eq_getElem_cons hlt] at h1
        rw [List.getElem?_eq_getElem hlt] at hs
        rw [Option.some.inj hs] at h1
        exact h1.symm
      have : depth base = depth (base.take e) + depth (base.drop (e + 1)) := by
        conv_lhs => rw [hsplit]
        unfold depth
        rw [cleanSegments_append_slash, List.length_append]
      omega

/-! ## Facts about the paths that `deleteFileUnderCursor` deletes -/

theorem isEntryName_iff (name : Str) :
    isEntryName name = true ↔ name ≠ [] ∧ '/' ∉ name ∧ name ≠ ['.'] ∧ name ≠ ['.', '.'] := by
  simp only [isEntryName, Bool.and_eq_true, bne_iff_ne, ne_eq, Bool.not_eq_true',
    List.contains_eq_any_beq, List.any_eq_false, beq_iff_eq]
  constructor
  · rintro ⟨⟨⟨h1, h2⟩, h3⟩, h4⟩
    exact ⟨h1, fun h => h2 '/' h rfl, h3, h4⟩
  · rintro ⟨h1, h2, h3, h4⟩
    exact ⟨⟨⟨h1, fun x hx e => h2 (e ▸ hx)⟩, h3⟩, h4⟩

theorem isStatusLetter_ne_slash (x : Char) (hx : isStatusLetter x = true) : x ≠ '/' := by
  intro e
  rw [e] at hx
  exact absurd hx (by decide)

theorem isEntryName_with_status (name : Str) (x : Char) (hname : isEntryName name = true)
    (hx : isStatusLetter x = true) : isEntryName (name ++ [' ', x]) = true := by
  rw [isEntryName_iff] at hname ⊢
  obtain ⟨h1, h2, _, _⟩ := hname
  obtain ⟨c, cs, rfl⟩ := List.exists_cons_of_ne_nil h1
  refine ⟨by simp, ?_, ?_, ?_⟩
  · intro h
    rcases List.mem_append.1 h with h | h
    · exact h2 h
    · simp only [List.mem_cons, List.mem_singleton, List.not_mem_nil, or_false] at h
      rcases h with h | h
      · exact absurd h (by decide)
      · exact isStatusLetter_ne_slash x hx h.symm
  · intro h
    have := congrArg List.length h
    simp at this
  · intro h
    have := congrArg List.length h
    simp at this

theorem isEntryName_status (x : Char) (hx : isStatusLetter x = true) :
    isEntryName [' ', x] = true := by
  rw [isEntryName_iff]
  refine ⟨by simp, ?_, by simp, ?_⟩
  · intro h
    simp only [List.mem_cons, List.mem_singleton, List.not_mem_nil, or_false] at h
    rcases h with h | h
    · exact absurd h (by decide)
    · exact isStatusLetter_ne_slash x hx h.symm
  · intro h
    have := (List.cons.inj h).1
    exact absurd this (by decide)

theorem entryName_noDots (n : Str) (hn : isEntryName n = true) :
    hasNoDotSegment n = true ∧ depth n = 1 ∧ n ≠ [] := by
  obtain ⟨h1, h2, h3, h4⟩ := (isEntryName_iff n).1 hn
  have hs := segments_of_no_slash n h2
  refine ⟨?_, ?_, h1⟩
  · rw [hasNoDotSegment_iff, hs]
    intro seg hseg
    rw [List.mem_singleton.1 hseg]
    exact ⟨h3, h4⟩
  · simp [depth, cleanSegments, hs, h1]

theorem hasNoDotSegment_nil : hasNoDotSegment [] = true := by decide

theorem depth_append_slash (a b : Str) : depth (a ++ '/' :: b) = depth a + depth b := by
  simp [depth, cleanSegments_append_slash]

theorem hasNoDotSegment_normalize (j : Str) (habs : j.head? = some '/')
    (hnd : hasNoDotSegment j = true) : hasNoDotSegment (normalize j) = true := by
  rw [normalize_of_noDots j habs hnd]
  have hfree : ∀ x ∈ cleanSegments j, '/' ∉ x := fun x hx =>
    segments_slash_free j x (List.mem_filter.1 hx).1
  have hmem : ∀ x ∈ cleanSegments j, x ≠ ['.'] ∧ x ≠ ['.', '.'] := fun x hx =>
    (hasNoDotSegment_iff j).1 hnd x (List.mem_filter.1 hx).1
  have hcore : hasNoDotSegment (['/'].intercalate (cleanSegments j)) = true := by
    rw [hasNoDotSegment_iff]
    by_cases hc : cleanSegments j = []
    · simp [hc, List.intercalate, segments]
    · rw [segments_intercalate _ hfree hc]
      exact hmem
  rw [show ∀ x : Str, '/' :: x = [] ++ '/' :: x from fun _ => rfl]
  refine hasNoDotSegment_append_slash _ _ hasNoDotSegment_nil ?_
  split
  · rw [show ['/'].intercalate (cleanSegments j) ++ ['/']
        = ['/'].intercalate (cleanSegments j) ++ '/' :: [] from rfl]
    exact hasNoDotSegment_append_slash _ _ hcore hasNoDotSegment_nil
  · rw [List.append_nil]
    exact hcore

theorem join_eq_normalize (base line : Str) (hb : base ≠ []) (hl : line ≠ []) :
    join [base, line] = normalize (base ++ '/' :: line) := by
  simp [join, hb, hl, List.intercalate]

theorem ne_nil_of_head (base : Str) (habs : base.head? = some '/') : base ≠ [] := by
  intro e
  rw [e] at habs
  simp at habs

theorem head_append_of_head (base rest : Str) (habs : base.head? = some '/') :
    (base ++ rest).head? = some '/' := by
  obtain ⟨c, cs, hcs⟩ := List.exists_cons_of_ne_nil (ne_nil_of_head base habs)
  rw [hcs] at habs ⊢
  simpa using habs

theorem hasNoDotSegment_join (base line : Str) (habs : base.head? = some '/')
    (hb : hasNoDotSegment base = true) (hl : hasNoDotSegment line = true) (hne : line ≠ []) :
    hasNoDotSegment (join [base, line]) = true := by
  rw [join_eq_normalize base line (ne_nil_of_head base habs) hne]
  exact hasNoDotSegment_normalize _ (head_append_of_head _ _ habs)
    (hasNoDotSegment_append_slash _ _ hb hl)

/-- The joined path of an absolute directory without `.` and `..` segments and an
entry name, written out. -/
theorem join_abs_entryName (base n : Str) (habs : base.head? = some '/')
    (hb : hasNoDotSegment base = true) (hn : isEntryName n = true) :
    join [base, n] = '/' :: ['/'].intercalate (cleanSegments base ++ [n]) := by
  obtain ⟨h1, h2, h3, h4⟩ := (isEntryName_iff n).1 hn
  obtain ⟨hnd, _, _⟩ := entryName_noDots n hn
  rw [join_eq_normalize base n (ne_nil_of_head base habs) h1,
    normalize_of_noDots _ (head_append_of_head _ _ habs)
      (hasNoDotSegment_append_slash _ _ hb hnd), cleanSegments_append_slash]
  have hcs : cleanSegments n = [n] := by
    simp [cleanSegments, segments_of_no_slash n h2, h1]
  have hlast : ¬ (base ++ '/' :: n).getLast? = some '/' := by
    obtain ⟨c, cs, hcs'⟩ := List.exists_cons_of_ne_nil h1
    rw [show base ++ '/' :: n = (base ++ ['/']) ++ n by simp, hcs', List.getLast?_append_cons,
      ← hcs']
    intro e
    exact h2 (List.mem_of_getLast?_eq_some e)
  simp only [hcs, hlast, false_and, if_false, List.append_nil]

theorem join_append_status (base name : Str) (x : Char) (habs : base.head? = some '/')
    (hb : hasNoDotSegment base = true) (hname : isEntryName name = true)
    (hx : isStatusLetter x = true) :
    join [base, name] ++ [' ', x] = join [base, name ++ [' ', x]] := by
  rw [join_abs_entryName base name habs hb hname,
    join_abs_entryName base _ habs hb (isEntryName_with_status name x hname hx),
    intercalate_concat, intercalate_concat]
  by_cases hc : cleanSegments base = [] <;> simp [hc]

/-- An entry line, in either display mode, has no `.` or `..` segment and at least one
non-empty segment. -/
theorem entryLine_noDots (host : Host) (s : Session) (base : Str) (e : DirectoryEntry)
    (habs : base.head? = some '/') (hb : hasNoDotSegment base = true)
    (hname : isEntryName e.name = true) :
    hasNoDotSegment (entryLine host s base e) = true ∧ 1 ≤ depth (entryLine host s base e)
      ∧ entryLine host s base e ≠ [] := by
  have hcore : ∀ n, isEntryName n = true →
      hasNoDotSegment (if s.showFullPaths then join [base, n] else n) = true
        ∧ 1 ≤ depth (if s.showFullPaths then join [base, n] else n)
        ∧ (if s.showFullPaths then join [base, n] else n) ≠ [] := by
    intro n hn
    obtain ⟨h1, h2, h3⟩ := entryName_noDots n hn
    by_cases hfull : s.showFullPaths = true
    · simp only [hfull, if_true]
      refine ⟨hasNoDotSegment_join base n habs hb h1 h3, ?_, ?_⟩
      · rw [depth_join base n habs hb h1 h3]
        omega
      · rw [join_abs_entryName base n habs hb hn]
        simp
    · simp only [hfull, Bool.false_eq_true, if_false]
      exact ⟨h1, by omega, h3⟩
  have htail : ∀ core t : Str, hasNoDotSegment core = true → 1 ≤ depth core →
      hasNoDotSegment t = true →
      hasNoDotSegment (core ++ '/' :: t) = true ∧ 1 ≤ depth (core ++ '/' :: t)
        ∧ core ++ '/' :: t ≠ [] := by
    intro core t h1 h2 h3
    refine ⟨hasNoDotSegment_append_slash _ _ h1 h3, ?_, by simp⟩
    rw [depth_append_slash]
    omega
  unfold entryLine formatEntry
  dsimp only
  rcases getGitStatus_cases host (join [base, e.name]) with hst | ⟨x, hx, hst⟩
  · rw [hst]
    simp only [ne_eq, not_true_eq_false, if_false]
    by_cases hdir : e.isDirectory = true
    · have := hcore e.name hname
      have := htail _ [] this.1 this.2.1 hasNoDotSegment_nil
      by_cases hfull : s.showFullPaths = true <;> simpa [hdir, hfull] using this
    · have := hcore e.name hname
      by_cases hfull : s.showFullPaths = true <;> simpa [hdir, hfull] using this
  · rw [hst]
    simp only [ne_eq, reduceCtorEq, not_false_eq_true, if_true]
    by_cases hdir : e.isDirectory = true
    · have h1 := hcore e.name hname
      have h2 := htail _ [' ', x] h1.1 h1.2.1 (entryName_noDots _ (isEntryName_status x hx)).1
      by_cases hfull : s.showFullPaths = true <;> simpa [hdir, hfull] using h2
    · have h1 := hcore _ (isEntryName_with_status e.name x hname hx)
      by_cases hfull : s.showFullPaths = true
      · simp only [hfull, if_true] at h1
        rw [← join_append_status base e.name x habs hb hname hx] at h1
        simpa [hdir, hfull] using h1
      · simpa [hdir, hfull] using h1

theorem mem_deleteLoop (ed : Editor) (base : Str) : ∀ (files : List Str) (p : Str),
    Call.delete p ∈ (deleteLoop ed base files).1 → ∃ file ∈ files, p = join [base, file]
  | [], p, h => by simp [deleteLoop] at h
  | file :: rest, p, h => by
    simp only [deleteLoop] at h
    split at h
    · rcases List.mem_cons.1 h with h | h
      · exact ⟨file, List.mem_cons_self _ _, Call.delete.inj h⟩
      · obtain ⟨f, hf, hp⟩ := mem_deleteLoop ed base rest p h
        exact ⟨f, List.mem_cons_of_mem _ hf, hp⟩
    · rw [List.mem_singleton] at h
      exact ⟨file, List.mem_cons_self _ _, Call.delete.inj h⟩

theorem mem_deleteFileUnderCursor (ed : Editor) (s : Session) (p : Str)
    (h : Call.delete p ∈ (deleteFileUnderCursor ed s).calls) :
    ∃ file ∈ ed.linesUnderCursor, file ≠ "../".toList ∧ p = join [ed.currentDir, file] := by
  unfold deleteFileUnderCursor at h
  dsimp only at h
  have key : Call.delete p ∈ (deleteLoop ed ed.currentDir
      (ed.linesUnderCursor.filter (fun file => file ≠ "../".toList))).1 := by
    split at h
    · simp at h
    · split at h
      · simpa using h
      · simpa using h
  obtain ⟨file, hf, hp⟩ := mem_deleteLoop ed _ _ p key
  have := List.mem_filter.1 hf
  exact ⟨file, this.1, by simpa using this.2, hp⟩

/-! ## Facts about entry lines, from the entry name -/

theorem includes_iff_isInfix_of (pat : Str) : ∀ (s : Str), includes s pat = true ↔ pat <:+: s
  | [] => by simp [includes]
  | c :: cs => by
    rw [includes, Bool.or_eq_true, List.isPrefixOf_iff_prefix, includes_iff_isInfix_of pat cs,
      List.infix_cons_iff]

theorem segments_head_isPrefix_of : ∀ (x s : Str) (ss : List Str), segments x = s :: ss → s <+: x
  | [], s, ss, h => by
    simp only [segments, List.cons.injEq] at h
    exact h.1 ▸ List.nil_prefix
  | c :: cs, s, ss, h => by
    simp only [segments] at h
    by_cases hc : c = '/'
    · simp only [hc, if_true, List.cons.injEq] at h
      rw [← h.1]
      exact List.nil_prefix
    · simp only [hc, if_false] at h
      obtain ⟨x, xs, hs⟩ := List.exists_cons_of_ne_nil (segments_ne_nil cs)
      rw [hs] at h
      simp only [List.cons.injEq] at h
      rw [← h.1]
      exact (List.prefix_cons_inj c).2 (segments_head_isPrefix_of cs x xs hs)

theorem segments_isInfix_of : ∀ (x seg : Str), seg ∈ segments x → seg <:+: x
  | [], seg, h => by
    simp only [segments, List.mem_singleton] at h
    exact h ▸ List.nil_infix
  | c :: cs, seg, h => by
    have ih := segments_isInfix_of cs
    simp only [segments] at h
    by_cases hc : c = '/'
    · simp only [hc, if_true, List.mem_cons] at h
      rcases h with rfl | h
      · exact List.nil_infix
      · exact List.infix_cons (ih seg h)
    · simp only [hc, if_false] at h
      obtain ⟨x, xs, hs⟩ := List.exists_cons_of_ne_nil (segments_ne_nil cs)
      rw [hs] at h
      simp only [List.mem_cons] at h
      rcases h with rfl | h
      · exact ((List.prefix_cons_inj c).2 (segments_head_isPrefix_of cs x xs hs)).isInfix
      · exact List.infix_cons (ih seg (by rw [hs]; exact List.mem_cons_of_mem _ h))

theorem includes_of_mem_segments (x seg pat : Str) (h : seg ∈ segments x)
    (hi : includes seg pat = true) : includes x pat = true :=
  (includes_iff_isInfix_of pat x).2 (((includes_iff_isInfix_of pat seg).1 hi).trans (segments_isInfix_of x seg h))

theorem includes_intercalate : ∀ (l : List Str),
    includes (['/'].intercalate l) [':', ' '] = true → ∃ seg ∈ l, includes seg [':', ' '] = true
  | [], h => by simp [List.intercalate, includes] at h
  | [x], h => ⟨x, List.mem_singleton_self _, by simpa [List.intercalate] using h⟩
  | x :: y :: l, h => by
    rw [intercalate_cons_cons] at h
    rcases includes_append_pair _ _ _ _ h with h | h | ⟨_, h⟩
    · exact ⟨x, List.mem_cons_self _ _, h⟩
    · rw [includes_cons_pair] at h
      have h' : includes (['/'].intercalate (y :: l)) [':', ' '] = true := by simpa using h
      obtain ⟨seg, hseg, hi⟩ := includes_intercalate (y :: l) h'
      exact ⟨seg, List.mem_cons_of_mem _ hseg, hi⟩
    · simp at h

theorem normalizeStep_mem (res : List Str) (seg x : Str)
    (h : x ∈ normalizeStep false res seg) : x ∈ res ∨ x = seg := by
  unfold normalizeStep at h
  split at h
  · exact Or.inl h
  · split at h
    · cases res with
      | nil => simp at h
      | cons top below =>
        dsimp only at h
        split at h
        · simp only [Bool.false_eq_true, if_false] at h
          exact Or.inl h
        · exact Or.inl (List.mem_cons_of_mem _ h)
    · rcases List.mem_cons.1 h with h | h
      · exact Or.inr h
      · exact Or.inl h

theorem foldl_normalizeStep_mem : ∀ (segs acc : List Str) (x : Str),
    x ∈ segs.foldl (normalizeStep false) acc → x ∈ acc ∨ x ∈ segs
  | [], _, _, h => Or.inl h
  | seg :: segs, acc, x, h => by
    rw [List.foldl_cons] at h
    rcases foldl_normalizeStep_mem segs _ x h with h | h
    · rcases normalizeStep_mem acc seg x h with h | h
      · exact Or.inl h
      · exact Or.inr (h ▸ List.mem_cons_self _ _)
    · exact Or.inr (List.mem_cons_of_mem _ h)

/-- The joined path of an absolute directory and an entry name, written out. -/
theorem join_abs_explicit (base name : Str) (habs : base.head? = some '/')
    (hname : isEntryName name = true) :
    join [base, name] = '/' :: ['/'].intercalate
      (((segments base).foldl (normalizeStep false) []).reverse ++ [name]) := by
  obtain ⟨hne, hno, _, _⟩ := (isEntryName_iff name).1 hname
  rw [join_eq_normalize base name (ne_nil_of_head base habs) hne]
  have hj : base ++ '/' :: name ≠ [] := by simp
  have habs' := head_append_of_head base ('/' :: name) habs
  have htrail : ¬ (base ++ '/' :: name).getLast? = some '/' := by
    obtain ⟨c, cs, hcs⟩ := List.exists_cons_of_ne_nil hne
    rw [show base ++ '/' :: name = (base ++ ['/']) ++ name by simp, hcs,
      List.getLast?_append_cons, ← hcs]
    intro e
    exact hno (List.mem_of_getLast?_eq_some e)
  have hp : normalizeString (base ++ '/' :: name) false = ['/'].intercalate
      (((segments base).foldl (normalizeStep false) []).reverse ++ [name]) := by
    simp [normalizeString, segments_append_slash, segments_of_no_slash name hno,
      List.foldl_append, normalizeStep_of_entryName false _ name hname]
  have hpne : ['/'].intercalate
      (((segments base).foldl (normalizeStep false) []).reverse ++ [name]) ≠ [] := by
    rw [intercalate_concat]
    split
    · exact hne
    · simp
  unfold normalize
  simp only [hj, if_false, habs', htrail, decide_True, Bool.not_true, hp, hpne, if_true]

theorem not_includes_join (base name : Str) (habs : base.head? = some '/')
    (hname : isEntryName name = true) (hb : includes base [':', ' '] = false)
    (hn : includes name [':', ' '] = false) :
    includes (join [base, name]) [':', ' '] = false := by
  rw [Bool.eq_false_iff]
  intro h
  rw [join_abs_explicit base name habs hname, includes_cons_pair] at h
  have h' : includes (['/'].intercalate
      (((segments base).foldl (normalizeStep false) []).reverse ++ [name])) [':', ' ']
      = true := by simpa using h
  obtain ⟨seg, hseg, hi⟩ := includes_intercalate _ h'
  rcases List.mem_append.1 hseg with hseg | hseg
  · rcases foldl_normalizeStep_mem _ _ seg (List.mem_reverse.1 hseg) with h1 | h1
    · simp at h1
    · rw [includes_of_mem_segments base seg _ h1 hi] at hb
      exact absurd hb (by decide)
  · rw [List.mem_singleton.1 hseg] at hi
    rw [hi] at hn
    exact absurd hn (by decide)

theorem join_concat_slash (base name : Str) (habs : base.head? = some '/')
    (hname : isEntryName name = true) :
    join [base, name ++ ['/']] = join [base, name] ++ ['/'] := by
  obtain ⟨hne, hno, _, _⟩ := (isEntryName_iff name).1 hname
  rw [join_abs_explicit base name habs hname,
    join_eq_normalize base (name ++ ['/']) (ne_nil_of_head base habs) (by simp)]
  have hj : base ++ '/' :: (name ++ ['/']) ≠ [] := by simp
  have habs' := head_append_of_head base ('/' :: (name ++ ['/'])) habs
  have htrail : (base ++ '/' :: (name ++ ['/'])).getLast? = some '/' := by
    rw [show base ++ '/' :: (name ++ ['/']) = (base ++ '/' :: name) ++ ['/'] by simp]
    exact List.getLast?_concat _
  have hp : normalizeString (base ++ '/' :: (name ++ ['/'])) false = ['/'].intercalate
      (((segments base).foldl (normalizeStep false) []).reverse ++ [name]) := by
    rw [show base ++ '/' :: (name ++ ['/']) = base ++ '/' :: name ++ '/' :: [] by simp]
    have hnil : ∀ res : List Str, normalizeStep false res [] = res := fun res => by
      simp [normalizeStep]
    simp [normalizeString, segments_append_slash, segments_of_no_slash name hno,
      List.foldl_append, normalizeStep_of_entryName false _ name hname, segments, hnil]
  have hpne : ['/'].intercalate
      (((segments base).foldl (normalizeStep false) []).reverse ++ [name]) ≠ [] := by
    rw [intercalate_concat]
    split
    · exact hne
    · simp
  unfold normalize
  simp only [hj, if_false, habs', htrail, decide_True, Bool.not_true, hp, hpne, if_true,
    List.cons_append]

theorem isPrefixOf_append : ∀ (pat a b : Str), pat.isPrefixOf (a ++ b) = true →
    pat.isPrefixOf a = true ∨ ∃ c ∈ pat, b.head? = some c
  | [], _, _, _ => Or.inl (by simp)
  | p :: ps, [], b, h => by
    refine Or.inr ?_
    cases b with
    | nil => simp at h
    | cons c cs =>
      simp only [List.nil_append, List.isPrefixOf, Bool.and_eq_true, beq_iff_eq] at h
      exact ⟨p, List.mem_cons_self _ _, by simp [h.1]⟩
  | p :: ps, x :: a, b, h => by
    simp only [List.cons_append, List.isPrefixOf, Bool.and_eq_true, beq_iff_eq] at h
    rcases isPrefixOf_append ps a b h.2 with h' | ⟨c, hc, hb⟩
    · refine Or.inl ?_
      simp only [List.isPrefixOf, Bool.and_eq_true, beq_iff_eq]
      exact ⟨h.1, h'⟩
    · exact Or.inr ⟨c, List.mem_cons_of_mem _ hc, hb⟩

theorem bookmarkMatch_append (name tail : Str) (hbm : bookmarkPrefix name = none)
    (ht : ']' ∉ tail) (htail : tail.head? ≠ some '[') : bookmarkMatch (name ++ tail) = none := by
  cases name with
  | nil =>
    cases tail with
    | nil => rfl
    | cons c cs =>
      have hc : c ≠ '[' := fun e => htail (by simp [e])
      simp [bookmarkMatch, hc]
  | cons c t =>
    by_cases hc : c = '['
    · simp only [bookmarkPrefix, hc, if_true] at hbm
      simp only [List.cons_append, bookmarkMatch, hc, if_true]
      cases hd : t.dropWhile (fun x => x != ']') with
      | nil =>
        have hall : ∀ x ∈ t ++ tail, (x != ']') = true := by
          intro x hx
          rcases List.mem_append.1 hx with hx | hx
          · exact (List.dropWhile_eq_nil_iff.1 hd) x hx
          · simp only [bne_iff_ne, ne_eq]
            intro e
            exact ht (e ▸ hx)
        rw [List.dropWhile_eq_nil_iff.2 hall]
      | cons d u =>
        rw [hd] at hbm
        simp only at hbm
        have hkey : t.takeWhile (fun x => x != ']') = [] := by
          by_contra hk
          simp [hk] at hbm
        cases t with
        | nil => simp at hd
        | cons d' t' =>
          have hd' : (d' != ']') = false := by
            by_contra hne
            simp only [Bool.not_eq_false] at hne
            simp [List.takeWhile_cons, hne] at hkey
          simp [List.takeWhile_cons, List.dropWhile_cons, hd']
    · simp [bookmarkMatch, hc]

theorem isStatusLetter_ne (x : Char) (hx : isStatusLetter x = true) :
    x ≠ ']' ∧ x ≠ '-' ∧ x ≠ '/' := by
  refine ⟨?_, ?_, ?_⟩ <;>
    · intro e
      rw [e] at hx
      exact absurd hx (by decide)

/-- What follows the name (or the full path) in an entry line: nothing, a status suffix,
a slash, or a slash and a status suffix. -/
theorem entryLine_shape (host : Host) (s : Session) (base : Str) (e : DirectoryEntry) :
    ∃ rest x, isStatusLetter x = true
      ∧ entryLine host s base e
        = (if s.showFullPaths then join [base, e.name] else e.name) ++ rest
      ∧ (rest = [] ∨ rest = [' ', x] ∨ rest = ['/'] ∨ rest = ['/', ' ', x])
      ∧ (rest = [' ', x] →
          e.isDirectory = false ∧ getGitStatus host (join [base, e.name]) ≠ [])
      ∧ (rest = [] → e.isDirectory = false) := by
  unfold entryLine formatEntry
  dsimp only
  rcases getGitStatus_cases host (join [base, e.name]) with hst | ⟨x, hx, hst⟩
  · rw [hst]
    by_cases hdir : e.isDirectory = true
    · refine ⟨['/'], 'M', by decide, ?_, Or.inr (Or.inr (Or.inl rfl)), ?_, ?_⟩
      · by_cases hfull : s.showFullPaths = true <;> simp [hdir, hfull]
      · intro h
        exact absurd h (by decide)
      · intro h
        exact absurd h (by decide)
    · refine ⟨[], 'M', by decide, ?_, Or.inl rfl, ?_, ?_⟩
      · by_cases hfull : s.showFullPaths = true <;> simp [hdir, hfull]
      · intro h
        exact absurd h (by decide)
      · intro _
        simpa using hdir
  · rw [hst]
    by_cases hdir : e.isDirectory = true
    · refine ⟨['/', ' ', x], x, hx, ?_, Or.inr (Or.inr (Or.inr rfl)), ?_, ?_⟩
      · by_cases hfull : s.showFullPaths = true <;> simp [hdir, hfull]
      · intro h
        have := (List.cons.inj h).1
        exact absurd this (by decide)
      · intro h
        exact absurd h (by simp)
    · refine ⟨[' ', x], x, hx, ?_, Or.inr (Or.inl rfl), ?_, ?_⟩
      · by_cases hfull : s.showFullPaths = true <;> simp [hdir, hfull]
      · intro _
        exact ⟨by simpa using hdir, by simp⟩
      · intro h
        exact absurd h (by simp)

theorem rest_facts (rest : Str) (x : Char) (hx : isStatusLetter x = true)
    (hr : rest = [] ∨ rest = [' ', x] ∨ rest = ['/'] ∨ rest = ['/', ' ', x]) :
    ']' ∉ rest ∧ rest.head? ≠ some '[' ∧ includes rest [':', ' '] = false
      ∧ (∀ c ∈ "vsnetrw".toList, rest.head? ≠ some c)
      ∧ (rest ≠ [] → rest.getLast? ≠ some '-')
      ∧ (rest.head? = some ' ' → rest = [' ', x]) := by
  obtain ⟨h1, h2, h3⟩ := isStatusLetter_ne x hx
  have hv : ∀ c ∈ "vsnetrw".toList, c ≠ ' ' ∧ c ≠ '/' := by decide
  rcases hr with rfl | rfl | rfl | rfl
  · refine ⟨by simp, by simp, by decide, by simp, by simp, by simp⟩
  · refine ⟨?_, by simp, ?_, ?_, ?_, fun _ => rfl⟩
    · simp only [List.mem_cons, List.mem_singleton, List.not_mem_nil, or_false, not_or]
      exact ⟨by decide, fun e => h1 e.symm⟩
    · simp [includes, List.isPrefixOf]
    · intro c hc h
      simp only [List.head?_cons, Option.some.injEq] at h
      exact (hv c hc).1 h.symm
    · intro _ h
      simp only [List.getLast?_cons_cons, List.getLast?_singleton, Option.some.injEq] at h
      exact h2 h
  · refine ⟨by decide, by decide, by decide, ?_, by decide, ?_⟩
    · intro c hc h
      simp only [List.head?_cons, Option.some.injEq] at h
      exact (hv c hc).2 h.symm
    · intro h
      exact absurd h (by decide)
  · refine ⟨?_, by simp, ?_, ?_, ?_, ?_⟩
    · simp only [List.mem_cons, List.mem_singleton, List.not_mem_nil, or_false, not_or]
      exact ⟨by decide, by decide, fun e => h1 e.symm⟩
    · simp [includes, List.isPrefixOf]
    · intro c hc h
      simp only [List.head?_cons, Option.some.injEq] at h
      exact (hv c hc).2 h.symm
    · intro _ h
      simp only [List.getLast?_cons_cons, List.getLast?_singleton, Option.some.injEq] at h
      exact h2 h
    · intro h
      simp only [List.head?_cons, Option.some.injEq] at h
      exact absurd h (by decide)

theorem slash_line_classified (l : Str) (h : l.head? = some '/') :
    l ≠ "-- BOOKMARKS --".toList ∧ startsWith l "vsnetrw".toList = false
      ∧ bookmarkMatch l = none := by
  cases l with
  | nil => simp at h
  | cons c cs =>
    simp only [List.head?_cons, Option.some.injEq] at h
    subst h
    refine ⟨?_, rfl, ?_⟩
    · intro e
      have := congrArg List.head? e
      simp at this
    · simp [bookmarkMatch]

/-- From the conditions on the directory and on the entry name: the entry line is
neither a non-path line nor a bookmark line. -/
theorem entryLine_classified (host : Host) (s : Session) (base : Str) (e : DirectoryEntry)
    (habs : base.head? = some '/') (hbase : includes base ": ".toList = false)
    (hname : isEntryName e.name = true) (hcolon : includes e.name ": ".toList = false)
    (hvs : startsWith e.name "vsnetrw".toList = false) (hbm : bookmarkPrefix e.name = none)
    (hsep : e.isDirectory = false → s.showFullPaths = false →
      e.name ≠ "-- BOOKMARKS --".toList)
    (hst : e.isDirectory = false → getGitStatus host (join [base, e.name]) ≠ [] →
      e.name.getLast? ≠ some ':') :
    isNonPathLine (entryLine host s base e) = false
      ∧ bookmarkMatch (entryLine host s base e) = none := by
  have hpair : ": ".toList = [':', ' '] := rfl
  rw [hpair] at hbase hcolon
  obtain ⟨hne, hno, _, _⟩ := (isEntryName_iff e.name).1 hname
  obtain ⟨rest, x, hx, hline, hr, hrst, hrnil⟩ := entryLine_shape host s base e
  obtain ⟨r1, r2, r3, r4, r5, r6⟩ := rest_facts rest x hx hr
  have hcoreinc : includes (if s.showFullPaths then join [base, e.name] else e.name)
      [':', ' '] = false := by
    split
    · exact not_includes_join base e.name habs hname hbase hcolon
    · exact hcolon
  have hcorelast : (if s.showFullPaths then join [base, e.name] else e.name).getLast?
      = e.name.getLast? := by
    split
    · obtain ⟨pre, hj, _⟩ := join_entryName base e.name hname
      obtain ⟨c, cs, hcs⟩ := List.exists_cons_of_ne_nil hne
      rw [hj, hcs, List.getLast?_append_cons]
    · rfl
  have hinc : includes (entryLine host s base e) [':', ' '] = false := by
    rw [Bool.eq_false_iff, hline]
    intro h
    rcases includes_append_pair _ _ _ _ h with h | h | ⟨h1, h2⟩
    · rw [hcoreinc] at h
      exact absurd h (by decide)
    · rw [r3] at h
      exact absurd h (by decide)
    · obtain ⟨hfile, hstat⟩ := hrst (r6 h2)
      rw [hcorelast] at h1
      exact hst hfile hstat h1
  have hrest : entryLine host s base e ≠ "-- BOOKMARKS --".toList
      ∧ startsWith (entryLine host s base e) "vsnetrw".toList = false
      ∧ bookmarkMatch (entryLine host s base e) = none := by
    by_cases hfull : s.showFullPaths = true
    · refine slash_line_classified _ ?_
      rw [hline]
      simp only [hfull, if_true]
      rw [join_abs_explicit base e.name habs hname]
      rfl
    · have hrel : s.showFullPaths = false := by simpa using hfull
      simp only [hrel, Bool.false_eq_true, if_false] at hline
      rw [hline]
      refine ⟨?_, ?_, bookmarkMatch_append e.name rest hbm r1 r2⟩
      · by_cases hrn : rest = []
        · rw [hrn, List.append_nil]
          exact hsep (hrnil hrn) hrel
        · intro h
          have h1 := congrArg List.getLast? h
          obtain ⟨c, cs, hcs⟩ := List.exists_cons_of_ne_nil hrn
          rw [hcs, List.getLast?_append_cons, ← hcs] at h1
          exact r5 hrn (h1.trans (by decide))
      · rw [Bool.eq_false_iff]
        intro h
        rcases isPrefixOf_append _ _ _ h with h | ⟨c, hc, hh⟩
        · rw [startsWith] at hvs
          rw [hvs] at h
          exact absurd h (by decide)
        · exact r4 c hc hh
  simp only [isNonPathLine, hpair, hinc, hrest.2.1, Bool.or_false, decide_eq_false_iff_not]
  exact ⟨hrest.1, hrest.2.2⟩

/-! ## Facts about the deleted paths, for every absolute directory -/

theorem normalizeStep_isEntryName (res : List Str) (seg : Str)
    (hres : ∀ x ∈ res, isEntryName x = true) (hseg : '/' ∉ seg) :
    ∀ x ∈ normalizeStep false res seg, isEntryName x = true := by
  intro x hx
  unfold normalizeStep at hx
  split at hx
  · exact hres x hx
  · rename_i h1
    split at hx
    · cases res with
      | nil => simp at hx
      | cons top below =>
        dsimp only at hx
        split at hx
        · simp only [Bool.false_eq_true, if_false] at hx
          exact hres x hx
        · exact hres x (List.mem_cons_of_mem _ hx)
    · rename_i h2
      rcases List.mem_cons.1 hx with rfl | hx
      · rw [isEntryName_iff]
        exact ⟨fun e => h1 (Or.inl e), hseg, fun e => h1 (Or.inr e), h2⟩
      · exact hres x hx

theorem foldl_normalizeStep_isEntryName : ∀ (segs acc : List Str),
    (∀ x ∈ acc, isEntryName x = true) → (∀ x ∈ segs, '/' ∉ x) →
    ∀ x ∈ segs.foldl (normalizeStep false) acc, isEntryName x = true
  | [], _, hacc, _ => hacc
  | seg :: segs, acc, hacc, hsegs => by
    rw [List.foldl_cons]
    exact foldl_normalizeStep_isEntryName segs _
      (normalizeStep_isEntryName acc seg hacc (hsegs seg (List.mem_cons_self _ _)))
      (fun x hx => hsegs x (List.mem_cons_of_mem _ hx))

/-- Every segment that `normalizeString` keeps for a rooted path is a plain name. -/
theorem keptSegments_isEntryName (path : Str) :
    ∀ x ∈ keptSegments path, isEntryName x = true :=
  foldl_normalizeStep_isEntryName _ [] (by simp) (segments_slash_free path)

/-- The normal form of an absolute path: the kept segments, separated by single slashes,
after a slash; the trailing slash is kept. -/
theorem normalize_abs (j : Str) (habs : j.head? = some '/') :
    normalize j = '/' :: (['/'].intercalate (keptSegments j).reverse
      ++ if j.getLast? = some '/' ∧ keptSegments j ≠ [] then ['/'] else []) := by
  have hj := ne_nil_of_head j habs
  have hp : normalizeString j false = ['/'].intercalate (keptSegments j).reverse := rfl
  unfold normalize
  simp only [hj, if_false, habs, if_true, decide_True, Bool.not_true, hp]
  by_cases hc : keptSegments j = []
  · simp [hc, List.intercalate]
  · have hne : ['/'].intercalate (keptSegments j).reverse ≠ [] := by
      refine intercalate_ne_nil _ (by simpa using hc) ?_
      intro x hx
      exact ((isEntryName_iff x).1 (keptSegments_isEntryName j x (List.mem_reverse.1 hx))).1
    by_cases ht : j.getLast? = some '/' <;> simp [hne, hc, ht]

theorem cleanSegments_normalize_abs (j : Str) (habs : j.head? = some '/') :
    cleanSegments (normalize j) = (keptSegments j).reverse := by
  rw [normalize_abs j habs]
  have hfree : ∀ x ∈ (keptSegments j).reverse, '/' ∉ x := fun x hx =>
    ((isEntryName_iff x).1 (keptSegments_isEntryName j x (List.mem_reverse.1 hx))).2.1
  have hnonempty : ∀ x ∈ (keptSegments j).reverse, x ≠ [] := fun x hx =>
    ((isEntryName_iff x).1 (keptSegments_isEntryName j x (List.mem_reverse.1 hx))).1
  rw [cleanSegments_slash_cons]
  split
  · rw [cleanSegments_concat_slash, cleanSegments_intercalate _ hfree hnonempty]
  · rw [List.append_nil, cleanSegments_intercalate _ hfree hnonempty]

theorem hasNoDotSegment_normalize_abs (j : Str) (habs : j.head? = some '/') :
    hasNoDotSegment (normalize j) = true := by
  rw [normalize_abs j habs]
  have hfree : ∀ x ∈ (keptSegments j).reverse, '/' ∉ x := fun x hx =>
    ((isEntryName_iff x).1 (keptSegments_isEntryName j x (List.mem_reverse.1 hx))).2.1
  have hmem : ∀ x ∈ (keptSegments j).reverse, x ≠ ['.'] ∧ x ≠ ['.', '.'] := fun x hx =>
    ((isEntryName_iff x).1 (keptSegments_isEntryName j x (List.mem_reverse.1 hx))).2.2
  have hcore : hasNoDotSegment (['/'].intercalate (keptSegments j).reverse) = true := by
    rw [hasNoDotSegment_iff]
    by_cases hc : (keptSegments j).reverse = []
    · simp [hc, List.intercalate, segments]
    · rw [segments_intercalate _ hfree hc]
      exact hmem
  rw [show ∀ x : Str, '/' :: x = [] ++ '/' :: x from fun _ => rfl]
  refine hasNoDotSegment_append_slash _ _ hasNoDotSegment_nil ?_
  split
  · rw [show ['/'].intercalate (keptSegments j).reverse ++ ['/']
        = ['/'].intercalate (keptSegments j).reverse ++ '/' :: [] from rfl]
    exact hasNoDotSegment_append_slash _ _ hcore hasNoDotSegment_nil
  · rw [List.append_nil]
    exact hcore

theorem keptSegments_append_slash (base line : Str) (hl : hasNoDotSegment line = true) :
    keptSegments (base ++ '/' :: line) = (cleanSegments line).reverse ++ keptSegments base := by
  unfold keptSegments cleanSegments
  rw [segments_append_slash, List.foldl_append,
    foldl_normalizeStep_of_noDots false _ _ ((hasNoDotSegment_iff line).1 hl)]

/-- Joining a line without `.` and `..` segments onto an absolute directory goes down,
from the directory as `path.join` resolves it, by as many levels as the line has
segments. -/
theorem depth_join_abs (base line : Str) (habs : base.head? = some '/')
    (hl : hasNoDotSegment line = true) (hne : line ≠ []) :
    depth (join [base, line]) = (keptSegments base).length + depth line := by
  rw [join_eq_normalize base line (ne_nil_of_head base habs) hne]
  unfold depth
  rw [cleanSegments_normalize_abs _ (head_append_of_head _ _ habs),
    keptSegments_append_slash _ _ hl]
  simp [Nat.add_comm]

theorem normalizeStep_parent_length (res : List Str) :
    (normalizeStep false res ['.', '.']).length ≤ res.length := by
  cases res with
  | nil => simp [normalizeStep]
  | cons top below =>
    by_cases h : top = ['.', '.'] <;> simp [normalizeStep, h]

/-- Joining `..` onto an absolute directory, with or without a trailing slash, does not
go down. -/
theorem depth_join_parent (base : Str) (habs : base.head? = some '/') :
    depth (join [base, ['.', '.']]) ≤ (keptSegments base).length
      ∧ depth (join [base, ['.', '.', '/']]) ≤ (keptSegments base).length := by
  have hnil : ∀ res : List Str, normalizeStep false res [] = res := fun res => by
    simp [normalizeStep]
  constructor
  · rw [join_eq_normalize base _ (ne_nil_of_head base habs) (by simp)]
    unfold depth
    rw [cleanSegments_normalize_abs _ (head_append_of_head _ _ habs)]
    have h : keptSegments (base ++ '/' :: ['.', '.'])
        = normalizeStep false (keptSegments base) ['.', '.'] := by
      unfold keptSegments
      rw [segments_append_slash, List.foldl_append]
      simp [segments]
    rw [h, List.length_reverse]
    exact normalizeStep_parent_length _
  · rw [join_eq_normalize base _ (ne_nil_of_head base habs) (by simp)]
    unfold depth
    rw [cleanSegments_normalize_abs _ (head_append_of_head _ _ habs)]
    have h : keptSegments (base ++ '/' :: ['.', '.', '/'])
        = normalizeStep false (keptSegments base) ['.', '.'] := by
      unfold keptSegments
      rw [segments_append_slash, List.foldl_append]
      simp [segments, hnil]
    rw [h, List.length_reverse]
    exact normalizeStep_parent_length _

theorem join_append_status_abs (base name : Str) (x : Char) (habs : base.head? = some '/')
    (hname : isEntryName name = true) (hx : isStatusLetter x = true) :
    join [base, name] ++ [' ', x] = join [base, name ++ [' ', x]] := by
  rw [join_abs_explicit base name habs hname,
    join_abs_explicit base _ habs (isEntryName_with_status name x hname hx),
    intercalate_concat, intercalate_concat]
  by_cases hc : ((segments base).foldl (normalizeStep false) []).reverse = [] <;> simp [hc]

/-- An entry line of an absolute directory, in either display mode, has no `.` or `..`
segment and at least one non-empty segment. -/
theorem entryLine_noDots_abs (host : Host) (s : Session) (base : Str) (e : DirectoryEntry)
    (habs : base.head? = some '/') (hname : isEntryName e.name = true) :
    hasNoDotSegment (entryLine host s base e) = true ∧ 1 ≤ depth (entryLine host s base e)
      ∧ entryLine host s base e ≠ [] := by
  have hcore : ∀ n, isEntryName n = true →
      hasNoDotSegment (if s.showFullPaths then join [base, n] else n) = true
        ∧ 1 ≤ depth (if s.showFullPaths then join [base, n] else n)
        ∧ (if s.showFullPaths then join [base, n] else n) ≠ [] := by
    intro n hn
    obtain ⟨h1, h2, h3⟩ := entryName_noDots n hn
    by_cases hfull : s.showFullPaths = true
    · simp only [hfull, if_true]
      refine ⟨?_, ?_, ?_⟩
      · rw [join_eq_normalize base n (ne_nil_of_head base habs) h3]
        exact hasNoDotSegment_normalize_abs _ (head_append_of_head _ _ habs)
      · rw [depth_join_abs base n habs h1 h3]
        omega
      · rw [join_abs_explicit base n habs hn]
        simp
    · simp only [hfull, Bool.false_eq_true, if_false]
      exact ⟨h1, by omega, h3⟩
  have htail : ∀ core t : Str, hasNoDotSegment core = true → 1 ≤ depth core →
      hasNoDotSegment t = true →
      hasNoDotSegment (core ++ '/' :: t) = true ∧ 1 ≤ depth (core ++ '/' :: t)
        ∧ core ++ '/' :: t ≠ [] := by
    intro core t h1 h2 h3
    refine ⟨hasNoDotSegment_append_slash _ _ h1 h3, ?_, by simp⟩
    rw [depth_append_slash]
    omega
  unfold entryLine formatEntry
  dsimp only
  rcases getGitStatus_cases host (join [base, e.name]) with hst | ⟨x, hx, hst⟩
  · rw [hst]
    simp only [ne_eq, not_true_eq_false, if_false]
    by_cases hdir : e.isDirectory = true
    · have := hcore e.name hname
      have := htail _ [] this.1 this.2.1 hasNoDotSegment_nil
      by_cases hfull : s.showFullPaths = true <;> simpa [hdir, hfull] using this
    · have := hcore e.name hname
      by_cases hfull : s.showFullPaths = true <;> simpa [hdir, hfull] using this
  · rw [hst]
    simp only [ne_eq, reduceCtorEq, not_false_eq_true, if_true]
    by_cases hdir : e.isDirectory = true
    · have h1 := hcore e.name hname
      have h2 := htail _ [' ', x] h1.1 h1.2.1 (entryName_noDots _ (isEntryName_status x hx)).1
      by_cases hfull : s.showFullPaths = true <;> simpa [hdir, hfull] using h2
    · have h1 := hcore _ (isEntryName_with_status e.name x hname hx)
      by_cases hfull : s.showFullPaths = true
      · simp only [hfull, if_true] at h1
        rw [← join_append_status_abs base e.name x habs hname hx] at h1
        simpa [hdir, hfull] using h1
      · simpa [hdir, hfull] using h1

/-- Every path that `deleteFileUnderCursor` deletes, for a selection of parent markers
and entry lines of an absolute directory, lies below the directory as `path.join`
resolves it. -/
theorem deleted_path_depth (host : Host) (ed : Editor) (s : Session)
    (results : List DirectoryEntry) (habs : ed.currentDir.head? = some '/')
    (hnames : ∀ e ∈ results, isEntryName e.name = true)
    (hsel : ∀ l ∈ ed.linesUnderCursor,
      l = "../".toList ∨ ∃ e ∈ results, l = entryLine host s ed.currentDir e)
    (p : Str) (hp : Call.delete p ∈ (deleteFileUnderCursor ed s).calls) :
    (keptSegments ed.currentDir).length < depth p := by
  obtain ⟨file, hf, hne, rfl⟩ := mem_deleteFileUnderCursor ed s p hp
  rcases hsel file hf with h | ⟨e, he, rfl⟩
  · exact absurd h hne
  · obtain ⟨h1, h2, h3⟩ := entryLine_noDots_abs host s ed.currentDir e habs (hnames e he)
    rw [depth_join_abs _ _ habs h1 h3]
    omega

/-! ## The claims -/

/-- C1 (as stated, fails): the file `notes: todo.txt` of `/a`, whose name neither ends
in a status suffix nor begins with a bookmark bracket, is rendered as `notes: todo.txt`,
and that line resolves to the empty string, not to `/a/notes: todo.txt`. -/
theorem entry_line_with_colon_space_is_not_resolved :
    endsInStatusSuffix notesFile.name = false ∧ bookmarkPrefix notesFile.name = none
      ∧ entryLine exampleHost plainSession "/a".toList notesFile = "notes: todo.txt".toList
      ∧ getFilePathFromLine plainSession
          (entryLine exampleHost plainSession "/a".toList notesFile) "/a".toList = []
      ∧ join ["/a".toList, notesFile.name] = "/a/notes: todo.txt".toList := by
  decide

/-- C1 (amended): for every base directory and every entry with a plain name (not
empty, without `/`, neither `.` nor `..`) that is a file, or a directory shown with
full paths: when the rendered line is not a non-path line and does not match the
bookmark pattern, and, for a file, the name does not end in white space followed by one
of `M A D U R C` nor, when the file has a git status, in a white-space character, then
`getFilePathFromLine` applied to the rendered line returns `join(baseDir, name)`. -/
theorem entry_line_round_trip (host : Host) (s : Session) (pathName : Str) (e : DirectoryEntry)
    (hname : isEntryName e.name = true)
    (hkind : e.isDirectory = false ∨ s.showFullPaths = true)
    (hnp : isNonPathLine (entryLine host s pathName e) = false)
    (hbm : bookmarkMatch (entryLine host s pathName e) = none)
    (hsfx : e.isDirectory = false → endsInStatusSuffix e.name = false)
    (hws : e.isDirectory = false → getGitStatus host (join [pathName, e.name]) ≠ [] →
      endsInWhiteSpace e.name = false) :
    getFilePathFromLine s (entryLine host s pathName e) pathName = join [pathName, e.name] :=
  entryLine_resolves host s pathName e hname hkind hnp hbm hsfx hws

/-- C1 (amended), at the file `f.txt` (modified) of `/a` with relative names, and at the
directory `sub` with full paths. -/
theorem entry_line_round_trip_witness :
    getFilePathFromLine plainSession "f.txt M".toList "/a".toList = "/a/f.txt".toList
      ∧ getFilePathFromLine fullPathSession "/a/sub/".toList "/a".toList = "/a/sub".toList :=
  ⟨entry_line_round_trip exampleHost plainSession "/a".toList fTxt (by decide) (by decide)
      (by decide) (by decide) (by decide) (by decide),
    entry_line_round_trip exampleHost fullPathSession "/a".toList subDir (by decide) (by decide)
      (by decide) (by decide) (by decide) (by decide)⟩

/-- C2 (directories first; the code departs from it): with `sub` (a directory) listed
before `f.txt` (a file, modified) by the filesystem, the listing of `/a` is
`../`, `f.txt M`, `sub/`: the file line precedes the directory line. In the other input
order the listing is `../`, `sub/`, `f.txt M`. The comparator answers "first" both for
`f.txt` against `sub` and for `sub` against `f.txt`. -/
theorem directories_first_broken_on_sub_then_file :
    listings exampleHost plainSession "/a".toList [subDir, fTxt]
        = ["../".toList, "f.txt M".toList, "sub/".toList]
      ∧ listings exampleHost plainSession "/a".toList [fTxt, subDir]
        = ["../".toList, "sub/".toList, "f.txt M".toList]
      ∧ compareEntries fTxt subDir = -1 ∧ compareEntries subDir fTxt = -1 := by
  decide

/-- C3: a line that is the bookmark separator, or starts with `vsnetrw`, or contains a
colon followed by a space resolves to the empty string, whatever the base directory,
the display mode and the rest of the line. -/
theorem non_path_line_resolves_to_empty (s : Session) (lineText baseDir : Str)
    (h : lineText = "-- BOOKMARKS --".toList ∨ startsWith lineText "vsnetrw".toList = true
      ∨ includes lineText ": ".toList = true) :
    getFilePathFromLine s lineText baseDir = [] := by
  have hnp : isNonPathLine lineText = true := by
    simp only [isNonPathLine, Bool.or_eq_true, decide_eq_true_eq]
    rcases h with h | h | h
    · exact Or.inl (Or.inl h)
    · exact Or.inl (Or.inr h)
    · exact Or.inr h
  simp [getFilePathFromLine, hnp]

/-- C3, at lines that also match the bookmark pattern or end in a status suffix. -/
theorem non_path_line_resolves_to_empty_witness :
    getFilePathFromLine fullPathSession "[k] /a: b M".toList "/base".toList = []
      ∧ getFilePathFromLine plainSession "vsnetrw.txt M".toList "/base".toList = [] :=
  ⟨non_path_line_resolves_to_empty _ _ _ (Or.inr (Or.inr (by decide))),
    non_path_line_resolves_to_empty _ _ _ (Or.inr (Or.inl (by decide)))⟩

/-- C4 (help banner lines are non-path lines; the code departs from it): under `/a`, the
three frame lines of the banner resolve to non-empty paths in both display modes; the
thirteen key-binding lines resolve to the empty string. -/
theorem help_banner_frame_lines_resolve_to_paths :
    helpText.map (fun l => getFilePathFromLine plainSession l "/a".toList)
        = ["/a/".toList, "/a/ Olivo Explorer /".toList, "/a/".toList,
            [], [], [], [], [], [], [], [], [], [], [], [], []]
      ∧ helpText.map (fun l => getFilePathFromLine fullPathSession l "/a".toList)
        = ["///////////////////".toList, "// Olivo Explorer /".toList,
            "///////////////////".toList,
            [], [], [], [], [], [], [], [], [], [], [], [], []] := by
  decide

/-- C5 (as stated, fails): the bookmark `w` of the absolute path `/my: work` is rendered
as `[w] /my: work/`, which resolves to the empty string; the bookmark `a]b` of `/work`
is rendered as `[a]b] /work/`, which resolves under `/a` to `/a/[a]b] /work/`. -/
theorem bookmark_line_with_colon_space_is_not_resolved :
    bookmarkLine ("w".toList, "/my: work".toList) = "[w] /my: work/".toList
      ∧ getFilePathFromLine plainSession (bookmarkLine ("w".toList, "/my: work".toList))
          "/a".toList = []
      ∧ getFilePathFromLine plainSession (bookmarkLine ("a]b".toList, "/work".toList))
          "/a".toList = "/a/[a]b] /work/".toList := by
  decide

/-- C5 (amended): for every bookmark whose key is non-empty and has no `]`, whose path
is absolute and has no line terminator, and whose key and path contain no colon
followed by a space, `getFilePathFromLine` applied to the rendered line `[key] path/`
returns exactly the path, for every base directory and both display modes. -/
theorem bookmark_line_round_trip (s : Session) (baseDir key path : Str) (hkey : key ≠ [])
    (hbr : ']' ∉ key) (habs : path.head? = some '/')
    (hlt : ∀ c ∈ path, isLineTerminator c = false)
    (hk : includes key ": ".toList = false) (hp : includes path ": ".toList = false) :
    getFilePathFromLine s (bookmarkLine (key, path)) baseDir = path := by
  have h1 := isNonPathLine_bookmarkLine key path hk hp
  have h2 := bookmarkMatch_bookmarkLine key path hkey hbr habs hlt
  have h3 : endsWith (path ++ ['/']) ['/'] = true := by
    simp [endsWith]
  simp [getFilePathFromLine, h1, h2, h3, sliceInit]

/-- C5 (amended), at the bookmark `w` of `/work`: the line `[w] /work/` resolves to
`/work`. -/
theorem bookmark_line_round_trip_witness :
    getFilePathFromLine fullPathSession "[w] /work/".toList "/elsewhere".toList
      = "/work".toList :=
  bookmark_line_round_trip fullPathSession "/elsewhere".toList "w".toList "/work".toList
    (by decide) (by decide) (by decide) (by decide) (by decide) (by decide)

/-- C6 (trailing slash of directory lines; the code departs from it in one mode): with
relative names the line `sub/` under `/a` resolves to `/a/sub/`, slash kept; with full
paths the line `/a/sub/` resolves to `/a/sub` under every base directory; the bookmark
line `[w] /work/` resolves to `/work`. -/
theorem relative_directory_line_keeps_slash :
    getFilePathFromLine plainSession "sub/".toList "/a".toList = "/a/sub/".toList
      ∧ (∀ baseDir, getFilePathFromLine fullPathSession "/a/sub/".toList baseDir
          = "/a/sub".toList)
      ∧ getFilePathFromLine plainSession "[w] /work/".toList "/a".toList = "/work".toList :=
  ⟨by decide, fun _ => rfl, by decide⟩

/-- C7 (as stated, fails): in `f.txt  M` (two spaces) the whole run of white space goes
with the letter, so the text left is `f.txt`, neither the line less its last two
characters nor the unchanged line; in `f.txt<TAB>M`, which does not end in a space
followed by a letter, the tab and the letter are removed all the same. -/
theorem status_suffix_takes_whole_whitespace_run :
    removeStatusSuffix "f.txt  M".toList = "f.txt".toList
      ∧ "f.txt".toList ≠ ("f.txt  M".toList.dropLast).dropLast
      ∧ endsWith "f.txt\tM".toList " M".toList = false
      ∧ removeStatusSuffix "f.txt\tM".toList = "f.txt".toList
      ∧ getFilePathFromLine plainSession "f.txt  M".toList "/a".toList = "/a/f.txt".toList := by
  decide

/-- C7 (amended): for a line that is neither a non-path line nor a bookmark line, the
text that `getFilePathFromLine` goes on to interpret is: when the line ends in one or
more white-space characters followed by one of `M A D U R C`, the line without that
letter and without the whole run of white space before it; the unchanged line
otherwise. -/
theorem status_suffix_removal (s : Session) (lineText baseDir : Str)
    (h1 : isNonPathLine lineText = false) (h2 : bookmarkMatch lineText = none) :
    getFilePathFromLine s lineText baseDir
        = resolveText s (removeStatusSuffix lineText) baseDir
      ∧ (∀ pre ws c, lineText = pre ++ ws ++ [c] → endsInWhiteSpace pre = false → ws ≠ [] →
          (∀ w ∈ ws, isWhiteSpace w = true) → isStatusLetter c = true →
          removeStatusSuffix lineText = pre)
      ∧ (endsInStatusSuffix lineText = false → removeStatusSuffix lineText = lineText) := by
  refine ⟨by simp [getFilePathFromLine, h1, h2], ?_, removeStatusSuffix_eq_self lineText⟩
  rintro pre ws c rfl hpre hne hws hc
  exact removeStatusSuffix_append pre ws c hpre hne hws hc

/-- C7 (amended), at the line `f.txt`, space, tab, `M`, and at the line `f.txt M ` whose
last character is a space. -/
theorem status_suffix_removal_witness :
    removeStatusSuffix "f.txt \tM".toList = "f.txt".toList
      ∧ removeStatusSuffix "f.txt M ".toList = "f.txt M ".toList :=
  ⟨(status_suffix_removal plainSession "f.txt \tM".toList "/a".toList (by decide)
      (by decide)).2.1 "f.txt".toList " \t".toList 'M' (by decide) (by decide) (by decide)
      (by decide) (by decide),
    (status_suffix_removal plainSession "f.txt M ".toList "/a".toList (by decide)
      (by decide)).2.2 (by decide)⟩

/-- C8 (as stated, fails): two files `b.txt`, `a.txt` given in this order come out as
`a.txt`, `b.txt`: the sort reorders two entries of the same kind. -/
theorem sort_reorders_files :
    arraySort compareEntries [⟨"b.txt".toList, 1⟩, ⟨"a.txt".toList, 1⟩]
      = [⟨"a.txt".toList, 1⟩, ⟨"b.txt".toList, 1⟩] := by
  decide

/-- C8 (amended): on a list of directories only, the sort of `provideTextDocumentContent`
keeps the input order; on a list of files only, it returns the same files in ascending
order of their names (compared by UTF-16 code units). -/
theorem sort_within_one_kind (results : List DirectoryEntry) :
    ((∀ e ∈ results, e.isDirectory = true) → arraySort compareEntries results = results)
      ∧ ((∀ e ∈ results, e.isDirectory = false) →
          (arraySort compareEntries results).Perm results
            ∧ (arraySort compareEntries results).Pairwise
                (fun a b => strLt b.name a.name = false)) := by
  refine ⟨fun h => ?_, fun h => ⟨arraySort_perm _ _, ?_⟩⟩
  · refine arraySort_eq_self _ _ ?_
    intro a ha b hb
    simp [compareEntries, h a ha, h b hb]
  · have hs := arraySort_sorted compareEntries compareEntries_consistent_on_files results h
    refine hs.imp_of_mem ?_
    intro a b _ hb hab
    have hbf : b.isDirectory = false := h b ((mem_arraySort _).1 hb)
    rw [compareEntries_lt_iff hbf, Bool.not_eq_true] at hab
    exact hab

/-- C8 (amended), at three directories and at three files. -/
theorem sort_within_one_kind_witness :
    arraySort compareEntries [⟨"z".toList, 2⟩, ⟨"m".toList, 2⟩, ⟨"q".toList, 2⟩]
        = [⟨"z".toList, 2⟩, ⟨"m".toList, 2⟩, ⟨"q".toList, 2⟩]
      ∧ (arraySort compareEntries [⟨"z".toList, 1⟩, ⟨"m".toList, 1⟩, ⟨"q".toList, 1⟩]).Pairwise
          (fun a b => strLt b.name a.name = false) :=
  ⟨(sort_within_one_kind _).1 (by decide), ((sort_within_one_kind _).2 (by decide)).2⟩

/-- C9 (as stated, fails): with bookmarks `B` and `a`, the listing ends with the separator,
then the line of `a`, then the line of `B`, although `B` comes before `a` in code-unit
order: the keys are ordered by the locale-sensitive `localeCompare`. -/
theorem bookmark_lines_not_in_ordinal_order :
    listings exampleHost twoBookmarks "/".toList []
        = ["-- BOOKMARKS --".toList, "[a] /y/".toList, "[B] /x/".toList]
      ∧ strLt "B".toList "a".toList = true := by
  decide

/-- C9 (amended): the listing is the header, the entry lines and the bookmark section.
The section is empty when `showBookmarks` is off or there is no bookmark; otherwise it
is the separator followed by one line `[key] path/` per bookmark, the bookmarks being
those of the map, rearranged; when `localeCompare` is a consistent comparator no line
comes before a line whose key `localeCompare` places before its own; and when, further,
`localeCompare` separates any two distinct keys, the order does not depend on the
insertion order of the bookmarks. -/
theorem bookmark_section_sorted_by_localeCompare (host : Host) (s : Session) (pathName : Str)
    (results : List DirectoryEntry) :
    listings host s pathName results =
        listingHeader s pathName ++ (visibleEntries s results).map (entryLine host s pathName)
          ++ bookmarkSection host s
      ∧ ((s.showBookmarks = false ∨ s.bookmarks = []) → bookmarkSection host s = [])
      ∧ (s.showBookmarks = true → s.bookmarks ≠ [] → bookmarkSection host s =
          "-- BOOKMARKS --".toList :: (sortedBookmarks host s).map bookmarkLine)
      ∧ (sortedBookmarks host s).Perm s.bookmarks
      ∧ (ConsistentOn host.localeCompare (fun _ => True) →
          (sortedBookmarks host s).Pairwise (fun a b => ¬ host.localeCompare b.1 a.1 < 0))
      ∧ (∀ s' : Session, ConsistentOn host.localeCompare (fun _ => True) →
          (∀ x y, x ≠ y → host.localeCompare x y < 0 ∨ host.localeCompare y x < 0) →
          (s.bookmarks.map Prod.fst).Nodup → s'.bookmarks.Perm s.bookmarks →
          sortedBookmarks host s' = sortedBookmarks host s) := by
  have hcons : ConsistentOn host.localeCompare (fun _ => True) →
      ConsistentOn (fun a b : Str × Str => host.localeCompare a.1 b.1) (fun _ => True) :=
    fun h => ⟨fun a b _ _ => h.asymm a.1 b.1 trivial trivial,
      fun a b c _ _ _ => h.trans a.1 b.1 c.1 trivial trivial trivial⟩
  have hsorted : ∀ t : Session, ConsistentOn host.localeCompare (fun _ => True) →
      (sortedBookmarks host t).Pairwise (fun a b => ¬ host.localeCompare b.1 a.1 < 0) :=
    fun t h => arraySort_sorted _ (hcons h) t.bookmarks (fun _ _ => trivial)
  refine ⟨listings_eq host s pathName results, ?_, ?_, arraySort_perm _ _, hsorted s, ?_⟩
  · rintro (h | h) <;> simp [bookmarkSection, h]
  · intro h1 h2
    have : s.bookmarks.length > 0 := List.length_pos.2 h2
    simp [bookmarkSection, bookmarkListings, h1, this]
  · intro s' hc htotal hnodup hperm
    have hp1 : (sortedBookmarks host s').Perm (sortedBookmarks host s) :=
      ((arraySort_perm _ _).trans hperm).trans (arraySort_perm _ _).symm
    refine hp1.eq_of_sorted ?_ (hsorted s' hc) (hsorted s hc)
    intro a b ha hb hab hba
    have ha' : a ∈ s.bookmarks := hperm.subset ((arraySort_perm _ _).subset ha)
    have hb' : b ∈ s.bookmarks := (arraySort_perm _ _).subset hb
    have hkey : a.1 = b.1 := by
      by_contra hne
      rcases htotal a.1 b.1 hne with h | h
      · exact hba h
      · exact hab h
    exact List.inj_on_of_nodup_map hnodup ha' hb' hkey

/-- C9 (amended), at the bookmarks `B`, `a` under a host that collates by code units. -/
theorem bookmark_section_sorted_by_localeCompare_witness :
    bookmarkSection ordinalHost twoBookmarks =
        "-- BOOKMARKS --".toList :: (sortedBookmarks ordinalHost twoBookmarks).map bookmarkLine
      ∧ (sortedBookmarks ordinalHost twoBookmarks).Pairwise
          (fun a b => ¬ ordinalHost.localeCompare b.1 a.1 < 0) :=
  ⟨(bookmark_section_sorted_by_localeCompare ordinalHost twoBookmarks [] []).2.2.1 rfl
      (by decide),
    (bookmark_section_sorted_by_localeCompare ordinalHost twoBookmarks [] []).2.2.2.2.1
      ordinalHost_consistent⟩

/-- C10: the listing is the header lines, then one line for each visible entry, then
the bookmark section; an entry of the directory is visible exactly when `showHidden` is
set or its name does not start with a dot. With relative names, the line of an entry
whose name starts with a dot is among the entry lines exactly when `showHidden` is set. -/
theorem hidden_entries_listed_iff_showHidden (host : Host) (s : Session) (pathName : Str)
    (results : List DirectoryEntry) :
    listings host s pathName results =
        listingHeader s pathName ++ (visibleEntries s results).map (entryLine host s pathName)
          ++ bookmarkSection host s
      ∧ (∀ e, e ∈ visibleEntries s results ↔
          e ∈ results ∧ (s.showHidden = true ∨ startsWith e.name ['.'] = false))
      ∧ (∀ e ∈ results, startsWith e.name ['.'] = true → s.showFullPaths = false →
          (entryLine host s pathName e ∈ (visibleEntries s results).map (entryLine host s pathName)
            ↔ s.showHidden = true)) := by
  refine ⟨listings_eq host s pathName results, mem_visibleEntries s results, ?_⟩
  intro e he hdot hrel
  have hhead : ∀ e' : DirectoryEntry,
      startsWith (entryLine host s pathName e') ['.'] = startsWith e'.name ['.'] := by
    intro e'
    unfold entryLine formatEntry startsWith
    rcases hn : e'.name with _ | ⟨c, cs⟩
    · by_cases h1 : e'.isDirectory = true <;>
        by_cases h2 : getGitStatus host (join [pathName, []]) = [] <;>
        simp [hrel, h1, h2, List.isPrefixOf]
    · by_cases h1 : e'.isDirectory = true <;>
        by_cases h2 : getGitStatus host (join [pathName, c :: cs]) = [] <;>
        simp [hrel, h1, h2, List.isPrefixOf]
  constructor
  · intro hmem
    obtain ⟨e', he', heq⟩ := List.mem_map.1 hmem
    rcases ((mem_visibleEntries s results e').1 he').2 with h | h
    · exact h
    · have h1 := hhead e'
      rw [heq, hhead e, hdot, h] at h1
      exact absurd h1 (by decide)
  · intro hshow
    exact List.mem_map.2 ⟨e, (mem_visibleEntries s results e).2 ⟨he, Or.inl hshow⟩, rfl⟩

/-- C11 (delete acts on the parsed path; the code departs from it): with relative names
and the line `f.txt M` selected under `/a`, `deleteFileUnderCursor` passes `/a/f.txt M`
to the delete call, while `getFilePathFromLine` resolves the line to `/a/f.txt`; with
full paths and the line `/a/f.txt` selected, it passes `/a/a/f.txt`. On the plain line
`f.txt` the two agree. -/
theorem delete_joins_the_raw_line :
    (deleteFileUnderCursor exampleEditor plainSession).calls
        = [Call.prompt, Call.delete "/a/f.txt M".toList, Call.refresh]
      ∧ getFilePathFromLine plainSession "f.txt M".toList "/a".toList = "/a/f.txt".toList
      ∧ (deleteFileUnderCursor { exampleEditor with linesUnderCursor := ["/a/f.txt".toList] }
          fullPathSession).calls
        = [Call.prompt, Call.delete "/a/a/f.txt".toList, Call.refresh]
      ∧ getFilePathFromLine fullPathSession "/a/f.txt".toList "/a".toList = "/a/f.txt".toList
      ∧ (deleteFileUnderCursor { exampleEditor with linesUnderCursor := ["f.txt".toList] }
          plainSession).calls
        = [Call.prompt, Call.delete "/a/f.txt".toList, Call.refresh] := by
  decide

/-- C12 (as stated, fails): in the explorer of `/a/b/..`, whose parent is `/a/b` for
the code (`dirname`), the listing of a directory that holds a file `b` is `../`, `b`;
with both lines selected, `deleteFileUnderCursor` passes `/a/b` to the delete call; when
`b` is a directory, its line `b/` is deleted as `/a/b/`. In the explorer of `//`, whose
parent is `/`, the line of an entry with an empty name is deleted as `/`. -/
theorem delete_reaches_the_parent_of_a_dotted_directory :
    listings exampleHost plainSession dotDotEditor.currentDir [bFile]
        = ["../".toList, "b".toList]
      ∧ dirname dotDotEditor.currentDir = "/a/b".toList
      ∧ dirname dotDotEditor.currentDir ≠ dotDotEditor.currentDir
      ∧ (deleteFileUnderCursor dotDotEditor plainSession).calls
        = [Call.prompt, Call.delete "/a/b".toList, Call.refresh]
      ∧ listings exampleHost plainSession dotDotEditor.currentDir [bDir]
        = ["../".toList, "b/".toList]
      ∧ (deleteFileUnderCursor
          { dotDotEditor with linesUnderCursor := ["../".toList, "b/".toList] }
          plainSession).calls
        = [Call.prompt, Call.delete "/a/b/".toList, Call.refresh]
      ∧ listings exampleHost plainSession slashesEditor.currentDir [emptyFile]
        = ["../".toList, []]
      ∧ dirname slashesEditor.currentDir = "/".toList
      ∧ (deleteFileUnderCursor slashesEditor plainSession).calls
        = [Call.prompt, Call.delete "/".toList, Call.refresh] := by
  decide

/-- C12 (amended): for every absolute current directory, both display modes and every
selection made of the parent marker and of entry lines of entries with plain names (not
empty, without `/`, neither `.` nor `..`), with or without a status suffix, none of the
paths that `deleteFileUnderCursor` passes to the delete call is the path that the parent
marker stands for in the same join, `join(dir, "..")`, with or without a trailing slash;
and when the path of the directory has no `.` and `..` segments, none is the parent of
the current directory (`dirname`), with or without a trailing slash. -/
theorem delete_spares_the_parent (host : Host) (ed : Editor) (s : Session)
    (results : List DirectoryEntry)
    (habs : ed.currentDir.head? = some '/')
    (hnames : ∀ e ∈ results, isEntryName e.name = true)
    (hsel : ∀ l ∈ ed.linesUnderCursor,
      l = "../".toList ∨ ∃ e ∈ results, l = entryLine host s ed.currentDir e) :
    (Call.delete (join [ed.currentDir, "..".toList]) ∉ (deleteFileUnderCursor ed s).calls
        ∧ Call.delete (join [ed.currentDir, "../".toList])
          ∉ (deleteFileUnderCursor ed s).calls)
      ∧ (hasNoDotSegment ed.currentDir = true →
        Call.delete (dirname ed.currentDir) ∉ (deleteFileUnderCursor ed s).calls
          ∧ Call.delete (dirname ed.currentDir ++ ['/'])
            ∉ (deleteFileUnderCursor ed s).calls) := by
  have key := deleted_path_depth host ed s results habs hnames hsel
  have hpar := depth_join_parent ed.currentDir habs
  refine ⟨⟨fun h => ?_, fun h => ?_⟩, fun hnd => ?_⟩
  · have h1 := key _ h
    have h2 := hpar.1
    exact absurd (Nat.lt_of_lt_of_le h1 h2) (Nat.lt_irrefl _)
  · have h1 := key _ h
    have h2 := hpar.2
    exact absurd (Nat.lt_of_lt_of_le h1 h2) (Nat.lt_irrefl _)
  · have hk : (keptSegments ed.currentDir).length = depth ed.currentDir := by
      unfold keptSegments depth cleanSegments
      rw [foldl_normalizeStep_of_noDots false _ _ ((hasNoDotSegment_iff _).1 hnd)]
      simp
    have hle := depth_dirname_le ed.currentDir habs
    constructor
    · intro h
      have := key _ h
      omega
    · intro h
      have := key _ h
      unfold depth at this hle hk
      rw [cleanSegments_concat_slash] at this
      omega

/-- C12 (amended), at the explorer of `/a` with the whole listing selected: `../`,
`sub/`, `f.txt M`. -/
theorem delete_spares_the_parent_witness :
    Call.delete "/".toList ∉ (deleteFileUnderCursor wholeListingEditor plainSession).calls :=
  ((delete_spares_the_parent exampleHost wholeListingEditor plainSession [subDir, fTxt]
    (by decide) (by decide) (by decide)).2 (by decide)).1

/-- C13 (an empty parse result is a no-op; the code departs from it): on the separator
line, which resolves to the empty string, `openFileUnderCursor` calls `stat` on the empty
path and then opens an explorer on it, or fails when `stat` throws;
`renameFileUnderCursor`, once the user has entered `x`, calls `stat` on `/a/x` and
`rename` from the empty path to `/a/x`. -/
theorem empty_parse_result_is_used_as_a_path :
    getFilePathFromLine plainSession separatorEditor.lineUnderCursor
        separatorEditor.currentDir = []
      ∧ (openFileUnderCursor separatorEditor plainSession).calls
        = [Call.stat [], Call.saveCursorPosition, Call.openExplorer []]
      ∧ (openFileUnderCursor { separatorEditor with stat := fun _ => none } plainSession).calls
        = [Call.stat []]
      ∧ (openFileUnderCursor { separatorEditor with stat := fun _ => none } plainSession).failed
        = true
      ∧ (renameFileUnderCursor separatorEditor plainSession).calls
        = [Call.prompt, Call.stat "/a/x".toList, Call.rename [] "/a/x".toList, Call.refresh]
      ∧ (∀ (ed : Editor) (s : Session),
          getFilePathFromLine s ed.lineUnderCursor ed.currentDir = [] →
          bookmarkPrefix ed.lineUnderCursor = none →
          (openFileUnderCursor ed s).calls.head? = some (Call.stat [])) := by
  refine ⟨by decide, by decide, by decide, by decide, by decide, ?_⟩
  intro ed s h1 h2
  unfold openFileUnderCursor
  simp only [h2, h1]
  cases ed.stat [] with
  | none => rfl
  | some type => by_cases h : (type &&& FileType.Directory != 0) = true <;> simp [h]

/-- C14 (as stated, fails): with the cursor on `sub/` under `/a` and a persistence write
that fails, `addBookmarkCommand` with the key `w` sets the bookmark in memory, issues
the write, and ends with the error of the write: no message, no refresh. -/
theorem failed_write_stops_the_bookmark_command :
    (addBookmarkCommand failingWriteEditor plainSession (some "w".toList)).calls
        = [Call.stat "/a/sub/".toList, Call.update [("w".toList, "/a/sub/".toList)]]
      ∧ (addBookmarkCommand failingWriteEditor plainSession (some "w".toList)).failed = true
      ∧ (addBookmarkCommand failingWriteEditor plainSession
          (some "w".toList)).session.bookmarks = [("w".toList, "/a/sub/".toList)]
      ∧ (addBookmark failingWriteEditor plainSession "w".toList "/a/sub".toList).failed
        = true := by
  decide

/-- C14 (amended): when the persistence write issued by `saveBookmarks` fails, the
bookmark map in memory already holds the new state (the key is mapped to the new path
by `addBookmark`, removed by `deleteBookmark`) and that state is the one written; the
operation itself fails with the write, and a bookmark command that reaches the write
(`addBookmarkCommand`, `deleteBookmarkCommand`) ends with that error, without a refresh.
When the operation does not fail, the command goes on to its message and its refresh. -/
theorem failed_write_keeps_memory_and_fails (ed : Editor) (s : Session) (key bookmarkPath : Str)
    (hc : ed.hasContext = true) (hu : ed.updateOk = false) :
    mapGet (addBookmark ed s key bookmarkPath).session.bookmarks key = some bookmarkPath
      ∧ (addBookmark ed s key bookmarkPath).calls
        = [Call.update (addBookmark ed s key bookmarkPath).session.bookmarks]
      ∧ (addBookmark ed s key bookmarkPath).failed = true
      ∧ mapGet (deleteBookmark ed s key).session.bookmarks key = none
      ∧ (deleteBookmark ed s key).calls
        = [Call.update (deleteBookmark ed s key).session.bookmarks]
      ∧ (deleteBookmark ed s key).failed = true
      ∧ (∀ k, EndsAtFailedWrite (addBookmarkCommand ed s k))
      ∧ EndsAtFailedWrite (deleteBookmarkCommand ed s)
      ∧ (∀ before r, r.failed = false →
          (thenRefresh before r).failed = false
            ∧ (thenRefresh before r).calls = before ++ r.calls ++ [Call.message, Call.refresh]) := by
  have hadd := addBookmark_of_failing_write ed s key bookmarkPath hc hu
  have hdel := deleteBookmark_of_failing_write ed s key hc hu
  refine ⟨?_, ?_, ?_, ?_, ?_, ?_, fun k => addBookmarkCommand_of_failing_write ed s k hc hu,
    deleteBookmarkCommand_of_failing_write ed s hc hu, ?_⟩
  · rw [hadd]
    exact mapGet_mapSet _ _ _
  · rw [hadd]
  · rw [hadd]
  · rw [hdel]
    exact mapGet_mapDelete _ _
  · rw [hdel]
  · rw [hdel]
  · intro before r hr
    simp [thenRefresh, hr]

/-- C14 (amended), at the bookmark `w` of `/a/sub` with a failing write. -/
theorem failed_write_keeps_memory_and_fails_witness :
    mapGet (addBookmark failingWriteEditor plainSession "w".toList
        "/a/sub".toList).session.bookmarks "w".toList = some "/a/sub".toList
      ∧ (addBookmark failingWriteEditor plainSession "w".toList "/a/sub".toList).failed = true
      ∧ EndsAtFailedWrite (addBookmarkCommand failingWriteEditor plainSession (some "w".toList)) :=
  ⟨(failed_write_keeps_memory_and_fails failingWriteEditor plainSession "w".toList
      "/a/sub".toList rfl rfl).1,
    (failed_write_keeps_memory_and_fails failingWriteEditor plainSession "w".toList
      "/a/sub".toList rfl rfl).2.2.1,
    (failed_write_keeps_memory_and_fails failingWriteEditor plainSession "w".toList
      "/a/sub".toList rfl rfl).2.2.2.2.2.2.1 _⟩

/-- C15: once `initialDirectory` holds a directory, no sequence of commands (with any
arguments and any answers of the host) changes it; every command other than
`openNewExplorer` and `openInitialDirectory` leaves it untouched in every session, and
these two assign it only when it is null; `openInitialDirectory` opens exactly the
directory stored when it returns. -/
theorem initialDirectory_is_set_once (s : Session) (d : Str) (h : s.initialDirectory = some d)
    (cmds : List (Editor × Op)) :
    (runCommands s cmds).initialDirectory = some d
      ∧ (∀ ed op, (perform ed s op).session.initialDirectory = some d)
      ∧ (∀ ed (t : Session) op, (∀ dir, op ≠ Op.openNewExplorer dir) →
          op ≠ Op.openInitialDirectory →
          (perform ed t op).session.initialDirectory = t.initialDirectory)
      ∧ (∀ ed, (openInitialDirectory ed s).calls
          = [Call.saveCursorPosition, Call.openExplorer d])
      ∧ (∀ ed (t : Session), t.initialDirectory = none →
          (openInitialDirectory ed t).session.initialDirectory = some ed.initialDir
            ∧ (openInitialDirectory ed t).calls = [Call.openExplorer ed.initialDir])
      ∧ (∀ ed (t : Session) dir, t.initialDirectory = none → ed.explorerActive = false →
          (openNewExplorer ed t (some dir)).session.initialDirectory = some dir
            ∧ (openNewExplorer ed t (some dir)).calls = [Call.openExplorer dir]) := by
  refine ⟨runCommands_initialDirectory d cmds s h,
    fun ed op => (perform_initialDirectory ed s op).2 d h,
    fun ed t op h1 h2 => (perform_initialDirectory ed t op).1 h1 h2, ?_, ?_, ?_⟩
  · intro ed
    simp [openInitialDirectory, h]
  · intro ed t ht
    simp [openInitialDirectory, ht]
  · intro ed t dir ht hact
    simp [openNewExplorer, ht, hact]

/-- C15, at a session whose initial directory is `/start`, run through a second
`openNewExplorer` on `/other`, a toggle and `openInitialDirectory`. -/
theorem initialDirectory_is_set_once_witness :
    (runCommands { initialDirectory := some "/start".toList }
        [({ exampleEditor with explorerActive := false },
            Op.openNewExplorer (some "/other".toList)),
          (exampleEditor, Op.toggleHidden),
          (exampleEditor, Op.openInitialDirectory)]).initialDirectory
      = some "/start".toList :=
  (initialDirectory_is_set_once _ _ rfl _).1

/-- C16 (as stated, fails): under `/a`, with every file reported as modified, the names
`a:`, `[k]` and `x` followed by a space satisfy the conditions of the claim (no slash,
no colon followed by a space, no `vsnetrw` prefix, no match of the bookmark pattern, no
status suffix), yet the line `a: M` resolves to the empty string, the line `[k] M` to
`M`, and the line of the third to `/a/x`, not to the joined paths. So do a file named
`-- BOOKMARKS --`, whose line resolves to the empty string, a directory named `..`,
whose line `../` resolves to `/`, and under `/` a directory named `.`, whose line `./`
resolves to `/`: not to the joined path followed by a slash. -/
theorem name_conditions_do_not_suffice :
    (∀ e ∈ [colonFile, bracketFile, spaceFile, separatorFile, dotDotDir, dotDir],
        e.name ≠ [] ∧ '/' ∉ e.name ∧ includes e.name ": ".toList = false
          ∧ startsWith e.name "vsnetrw".toList = false ∧ bookmarkMatch e.name = none
          ∧ endsInStatusSuffix e.name = false)
      ∧ entryLine modifiedHost plainSession "/a".toList colonFile = "a: M".toList
      ∧ getFilePathFromLine plainSession "a: M".toList "/a".toList = []
      ∧ entryLine modifiedHost plainSession "/a".toList bracketFile = "[k] M".toList
      ∧ getFilePathFromLine plainSession "[k] M".toList "/a".toList = "M".toList
      ∧ entryLine modifiedHost plainSession "/a".toList spaceFile = "x  M".toList
      ∧ getFilePathFromLine plainSession "x  M".toList "/a".toList = "/a/x".toList
      ∧ join ["/a".toList, spaceFile.name] = "/a/x ".toList
      ∧ entryLine exampleHost plainSession "/a".toList separatorFile
        = "-- BOOKMARKS --".toList
      ∧ getFilePathFromLine plainSession "-- BOOKMARKS --".toList "/a".toList = []
      ∧ entryLine exampleHost plainSession "/a".toList dotDotDir = "../".toList
      ∧ getFilePathFromLine plainSession "../".toList "/a".toList = "/".toList
      ∧ join ["/a".toList, dotDotDir.name] ++ ['/'] = "//".toList
      ∧ entryLine exampleHost plainSession "/".toList dotDir = "./".toList
      ∧ getFilePathFromLine plainSession "./".toList "/".toList = "/".toList
      ∧ join ["/".toList, dotDir.name] ++ ['/'] = "//".toList := by
  decide

/-- C16 (amended): for every absolute base directory containing no colon followed by a
space, and every entry whose name is plain (not empty, without `/`, neither `.` nor
`..`), contains no colon followed by a space, does not start with `vsnetrw`, does not
start with a bracketed key, does not end in white space followed by one of
`M A D U R C`, is not the separator text when it is a file shown by its bare name, and,
when it is a file with a git status, ends neither in a white-space character nor in a
colon: `getFilePathFromLine` applied to the rendered line returns `join(baseDir, name)`
for a file in both display modes and for a directory with full paths, and that path
followed by `/` for a directory shown by its bare name. -/
theorem entry_round_trip_from_name (host : Host) (s : Session) (base : Str) (e : DirectoryEntry)
    (habs : base.head? = some '/') (hbase : includes base ": ".toList = false)
    (hname : isEntryName e.name = true) (hcolon : includes e.name ": ".toList = false)
    (hvs : startsWith e.name "vsnetrw".toList = false) (hbm : bookmarkPrefix e.name = none)
    (hsfx : endsInStatusSuffix e.name = false)
    (hsep : e.isDirectory = false → s.showFullPaths = false →
      e.name ≠ "-- BOOKMARKS --".toList)
    (hst : e.isDirectory = false → getGitStatus host (join [base, e.name]) ≠ [] →
      endsInWhiteSpace e.name = false ∧ e.name.getLast? ≠ some ':') :
    getFilePathFromLine s (entryLine host s base e) base
      = if e.isDirectory = true ∧ s.showFullPaths = false then join [base, e.name] ++ ['/']
        else join [base, e.name] := by
  obtain ⟨hnp, hbmL⟩ := entryLine_classified host s base e habs hbase hname hcolon hvs hbm hsep
    (fun h1 h2 => (hst h1 h2).2)
  by_cases hdr : e.isDirectory = true ∧ s.showFullPaths = false
  · obtain ⟨hdir, hrel⟩ := hdr
    obtain ⟨_, hno, _, hdd⟩ := (isEntryName_iff e.name).1 hname
    have hgf : getFilePathFromLine s (entryLine host s base e) base
        = resolveText s (removeStatusSuffix (entryLine host s base e)) base := by
      simp [getFilePathFromLine, hnp, hbmL]
    rw [hgf]
    unfold entryLine formatEntry
    dsimp only
    simp only [hdir, hrel, Bool.false_eq_true, if_false, if_true, and_self]
    rw [removeStatusSuffix_line _ _ (getGitStatus_cases host (join [base, e.name]))
      (endsInStatusSuffix_concat _ '/' (by decide))
      (fun _ => by unfold endsInWhiteSpace; rw [List.getLast?_concat]; decide)]
    have h1 : e.name ++ ['/'] ≠ ['.', '.', '/'] := by
      intro h
      exact hdd (List.append_inj_left' (show e.name ++ ['/'] = ['.', '.'] ++ ['/'] from h) rfl)
    simp only [resolveText, show "../".toList = ['.', '.', '/'] from rfl, h1, if_false, hrel,
      Bool.false_eq_true]
    exact join_concat_slash base e.name habs hname
  · rw [if_neg hdr]
    refine entryLine_resolves host s base e hname ?_ hnp hbmL (fun _ => hsfx)
      (fun h1 h2 => (hst h1 h2).1)
    by_cases hdir : e.isDirectory = true
    · refine Or.inr ?_
      by_contra hfull
      exact hdr ⟨hdir, by simpa using hfull⟩
    · exact Or.inl (by simpa using hdir)

/-- C16 (amended), at the file `f.txt` (modified) and at the directory `sub` of `/a`,
shown by their bare names: `f.txt M` resolves to `/a/f.txt`, `sub/` to `/a/sub/`. -/
theorem entry_round_trip_from_name_witness :
    getFilePathFromLine plainSession "f.txt M".toList "/a".toList = "/a/f.txt".toList
      ∧ getFilePathFromLine plainSession "sub/".toList "/a".toList = "/a/sub/".toList :=
  ⟨entry_round_trip_from_name exampleHost plainSession "/a".toList fTxt (by decide) (by decide)
      (by decide) (by decide) (by decide) (by decide) (by decide) (by decide) (by decide),
    entry_round_trip_from_name exampleHost plainSession "/a".toList subDir (by decide)
      (by decide) (by decide) (by decide) (by decide) (by decide) (by decide) (by decide)
      (by decide)⟩

end Vsnetrw
